import Mathlib

/-
Verification of the signal-scoring and budget-constrained rendering engine
of the repo-query-surface repository (src/lib/render.py and
src/lib/primer_insights.py), as a shallow embedding in Lean 4.

Conventions used throughout:
* Python dicts keyed by path are modelled as total functions with an
  Option codomain (dict.get(k) semantics) or with a default value
  (dict.get(k, d) semantics).
* Python ints are Nat (all counters in the source are non-negative);
  Python floats are modelled as exact rationals (or reals where the code
  applies math.log2).
* Python list.sort / sorted (Timsort) is a stable sort; it is modelled by
  List.insertionSort, which is also stable, applied to the same total
  preorder on sort keys.
* Python while-loops whose termination relies on data invariants are
  modelled with an explicit fuel parameter instantiated with a bound
  that dominates the number of iterations.
-/

namespace RQS

/- ── Generic string/list utilities ─────────────────────────────────── -/

/-- Codepoint-wise lexicographic comparison of character lists, the order
Python uses on `str`. -/
def charsLt : List Char → List Char → Bool
  | [], [] => false
  | [], _ :: _ => true
  | _ :: _, [] => false
  | c :: cs, d :: ds =>
    if c.toNat < d.toNat then true
    else if d.toNat < c.toNat then false
    else charsLt cs ds

/-- Python string `<`. -/
def strLt (a b : String) : Bool := charsLt a.data b.data

/-- Python string `<=` (total order; `a <= b` iff `not (b < a)`). -/
def strLe (a b : String) : Bool := ! strLt b a

theorem charsLt_irrefl (l : List Char) : charsLt l l = false := by
  induction l with
  | nil => rfl
  | cons c cs ih => simp [charsLt, ih]

theorem charsLt_cons_iff {x y : Char} {xs ys : List Char} :
    charsLt (x :: xs) (y :: ys) = true ↔
      x.toNat < y.toNat ∨ (x.toNat = y.toNat ∧ charsLt xs ys = true) := by
  simp only [charsLt]
  split_ifs with h1 h2
  · simp [h1]
  · simp only [Bool.false_eq_true, false_iff]
    push_neg
    exact ⟨by omega, fun he => absurd he (by omega)⟩
  · have he : x.toNat = y.toNat := by omega
    simp [he, h1]

theorem charsLt_trans {a b c : List Char} (h1 : charsLt a b = true)
    (h2 : charsLt b c = true) : charsLt a c = true := by
  induction a generalizing b c with
  | nil =>
    cases b with
    | nil => simp [charsLt] at h1
    | cons y ys =>
      cases c with
      | nil => simp [charsLt] at h2
      | cons z zs => rfl
  | cons x xs ih =>
    cases b with
    | nil => simp [charsLt] at h1
    | cons y ys =>
      cases c with
      | nil => simp [charsLt] at h2
      | cons z zs =>
        rw [charsLt_cons_iff] at h1 h2 ⊢
        rcases h1 with h1 | ⟨h1e, h1r⟩
        · rcases h2 with h2 | ⟨h2e, _⟩
          · exact Or.inl (by omega)
          · exact Or.inl (by omega)
        · rcases h2 with h2 | ⟨h2e, h2r⟩
          · exact Or.inl (by omega)
          · exact Or.inr ⟨by omega, ih h1r h2r⟩

theorem charsLt_connex {a b : List Char} (h1 : charsLt a b = false)
    (h2 : charsLt b a = false) : a = b := by
  induction a generalizing b with
  | nil =>
    cases b with
    | nil => rfl
    | cons y ys => simp [charsLt] at h1
  | cons x xs ih =>
    cases b with
    | nil => simp [charsLt] at h2
    | cons y ys =>
      have h1' := (Bool.not_eq_true _).mpr h1
      have h2' := (Bool.not_eq_true _).mpr h2
      rw [charsLt_cons_iff] at h1' h2'
      push_neg at h1' h2'
      have hxy : y.toNat ≤ x.toNat := h1'.1
      have hyx : x.toNat ≤ y.toNat := h2'.1
      have he : x.toNat = y.toNat := by omega
      have hv : x = y := Char.ext (UInt32.ext he)
      have hr : xs = ys := by
        apply ih
        · exact (Bool.not_eq_true _).mp (h1'.2 he)
        · exact (Bool.not_eq_true _).mp (h2'.2 he.symm)
      rw [hv, hr]

theorem strLt_irrefl (s : String) : strLt s s = false := charsLt_irrefl _

theorem strLt_trans {a b c : String} (h1 : strLt a b = true)
    (h2 : strLt b c = true) : strLt a c = true := charsLt_trans h1 h2

theorem strLt_connex {a b : String} (h1 : strLt a b = false)
    (h2 : strLt b a = false) : a = b := by
  cases a; cases b
  exact congrArg String.mk (charsLt_connex h1 h2)

theorem strLt_asymm {a b : String} (h1 : strLt a b = true) :
    strLt b a = false := by
  cases hba : strLt b a
  · rfl
  · exfalso
    have := strLt_trans h1 hba
    rw [strLt_irrefl] at this
    simp at this

theorem strLe_total (a b : String) : strLe a b = true ∨ strLe b a = true := by
  unfold strLe
  cases h : strLt b a
  · left; rfl
  · right
    rw [strLt_asymm h]
    rfl

theorem strLe_trans {a b c : String} (h1 : strLe a b = true)
    (h2 : strLe b c = true) : strLe a c = true := by
  unfold strLe at *
  simp only [Bool.not_eq_true'] at h1 h2 ⊢
  cases hca : strLt c a
  · rfl
  · exfalso
    cases hbc : strLt b c
    · have hbceq : b = c := strLt_connex hbc h2
      subst hbceq
      simp [hca] at h1
    · have := strLt_trans hbc hca
      simp [this] at h1

/-- String split on the '/' separator (Python `str.split("/")`). -/
def splitSlashAux : List Char → List Char → List String
  | [], acc => [String.mk acc.reverse]
  | c :: cs, acc =>
    if c = '/' then String.mk acc.reverse :: splitSlashAux cs []
    else splitSlashAux cs (c :: acc)

/-- Python `path.split("/")`. -/
def splitSlash (s : String) : List String := splitSlashAux s.data []

/-- Basename of a POSIX-style relative path (Python `os.path.basename`). -/
def basenameOf (s : String) : String := (splitSlash s).getLastD ""

/-- Deduplicate a list keeping the FIRST occurrence of each element, the
order in which a Python dict/set accumulates keys. -/
def firstDedupAux {α : Type} [DecidableEq α] : List α → List α → List α
  | _, [] => []
  | seen, x :: xs =>
    if x ∈ seen then firstDedupAux seen xs
    else x :: firstDedupAux (x :: seen) xs

/-- Insertion-order deduplication (Python dict key order). -/
def firstDedup {α : Type} [DecidableEq α] (l : List α) : List α :=
  firstDedupAux [] l

theorem mem_firstDedupAux {α : Type} [DecidableEq α] (seen : List α)
    (l : List α) (x : α) :
    x ∈ firstDedupAux seen l ↔ x ∈ l ∧ x ∉ seen := by
  induction l generalizing seen with
  | nil => simp [firstDedupAux]
  | cons y ys ih =>
    by_cases hy : y ∈ seen
    · simp only [firstDedupAux, if_pos hy, ih]
      constructor
      · rintro ⟨h1, h2⟩
        exact ⟨List.mem_cons_of_mem _ h1, h2⟩
      · rintro ⟨h1, h2⟩
        rcases List.mem_cons.mp h1 with h | h
        · exact absurd (h ▸ hy) h2
        · exact ⟨h, h2⟩
    · simp only [firstDedupAux, if_neg hy]
      constructor
      · intro hmem
        rcases List.mem_cons.mp hmem with h | h
        · exact ⟨h ▸ List.mem_cons_self _ _, h ▸ hy⟩
        · have := (ih (y :: seen)).mp h
          refine ⟨List.mem_cons_of_mem _ this.1, fun hx => this.2 (List.mem_cons_of_mem _ hx)⟩
      · rintro ⟨h1, h2⟩
        rcases List.mem_cons.mp h1 with h | h
        · exact h ▸ List.mem_cons_self _ _
        · by_cases hxy : x = y
          · exact hxy ▸ List.mem_cons_self _ _
          · exact List.mem_cons_of_mem _ ((ih (y :: seen)).mpr
              ⟨h, by simp [hxy, h2]⟩)

theorem mem_firstDedup {α : Type} [DecidableEq α] (l : List α) (x : α) :
    x ∈ firstDedup l ↔ x ∈ l := by
  simp [firstDedup, mem_firstDedupAux]

theorem nodup_firstDedupAux {α : Type} [DecidableEq α] (seen l : List α) :
    (firstDedupAux seen l).Nodup := by
  induction l generalizing seen with
  | nil => exact List.nodup_nil
  | cons y ys ih =>
    by_cases hy : y ∈ seen
    · simpa [firstDedupAux, if_pos hy] using ih seen
    · simp only [firstDedupAux, if_neg hy]
      refine List.nodup_cons.mpr ⟨fun hmem => ?_, ih (y :: seen)⟩
      exact ((mem_firstDedupAux _ _ _).mp hmem).2 (List.mem_cons_self _ _)

theorem nodup_firstDedup {α : Type} [DecidableEq α] (l : List α) :
    (firstDedup l).Nodup := nodup_firstDedupAux [] l

/-- Ceiling division on Nat, modelling Python `math.ceil(n / b)` for
non-negative integer inputs. -/
def ceilNat (n b : ℕ) : ℕ := (n + b - 1) / b

/-- Python `round()` (banker's rounding, half to even) on an exact
rational.  The rationals this development feeds it are exactly
representable, so this coincides with Python's float round. -/
def pyRound (q : ℚ) : ℤ :=
  let f := ⌊q⌋
  let r := q - f
  if r < 1/2 then f
  else if 1/2 < r then f + 1
  else if f % 2 = 0 then f else f + 1

/- ── Union-Find (render_churn, src/lib/render.py co-change clusters) ──

The Python code keeps a `parent` dict and looks keys up with
`parent.get(x, x)`; that is exactly a total function α → α which is the
identity off the dict's domain.  `_find` is a while loop performing path
halving (`parent[x] = parent.get(parent[x], parent[x])`); the loop is
modelled with a fuel parameter, instantiated below with a bound that
always suffices (proved by `ufFind_spec`). -/

variable {α : Type} [DecidableEq α]

/-- k-fold application of the parent map. -/
def pIter (p : α → α) : ℕ → α → α
  | 0, x => x
  | n + 1, x => pIter p n (p x)

theorem pIter_succ (p : α → α) (n : ℕ) (x : α) :
    pIter p (n + 1) x = pIter p n (p x) := rfl

theorem pIter_succ' (p : α → α) (n : ℕ) (x : α) :
    pIter p (n + 1) x = p (pIter p n x) := by
  induction n generalizing x with
  | zero => rfl
  | succ m ih => rw [pIter_succ, ih, pIter_succ]

theorem pIter_add (p : α → α) (m n : ℕ) (x : α) :
    pIter p (m + n) x = pIter p n (pIter p m x) := by
  induction m generalizing x with
  | zero => rw [Nat.zero_add]; rfl
  | succ k ih =>
    have h : k + 1 + n = (k + n) + 1 := by omega
    rw [h, pIter_succ, ih, pIter_succ]

theorem pIter_fix {p : α → α} {r : α} (h : p r = r) (k : ℕ) :
    pIter p k r = r := by
  induction k with
  | zero => rfl
  | succ m ih => rw [pIter_succ, h, ih]

/-- The parent map is an acyclic forest of height at most n: iterating n
times from anywhere reaches a fixpoint. -/
def Bnd (p : α → α) (n : ℕ) : Prop := ∀ x, p (pIter p n x) = pIter p n x

theorem bnd_id : Bnd (fun x : α => x) 0 := fun _ => rfl

theorem pIter_eq_of_bnd_le {p : α → α} {n m : ℕ} (hb : Bnd p n)
    (h : n ≤ m) (x : α) : pIter p m x = pIter p n x := by
  have hsplit : m = n + (m - n) := by omega
  rw [hsplit, pIter_add]
  exact pIter_fix (hb x) _

theorem bnd_mono {p : α → α} {n m : ℕ} (hb : Bnd p n) (h : n ≤ m) :
    Bnd p m := by
  intro x
  rw [pIter_eq_of_bnd_le hb h]
  exact hb x

theorem root_transfer {p q : α → α} {n : ℕ} (hbq : Bnd q n)
    (heq : ∀ y, pIter q n y = pIter p n y) {r : α} (hr : p r = r) :
    q r = r := by
  have h1 : pIter q n r = r := by rw [heq r, pIter_fix hr]
  have := hbq r
  rw [h1] at this
  exact this

/- Path-halving step lemmas.  `p' = Function.update p x (p (p x))` is the
effect of `parent[x] = parent.get(parent[x], parent[x])`. -/

theorem halve_step {p : α → α} {x : α} (hx : p x ≠ x) (y : α) (k : ℕ) :
    ∃ m, k ≤ m ∧ pIter (Function.update p x (p (p x))) k y = pIter p m y := by
  induction k with
  | zero => exact ⟨0, le_refl _, rfl⟩
  | succ j ih =>
    obtain ⟨m, hm, he⟩ := ih
    rw [pIter_succ']
    by_cases hz : pIter p m y = x
    · refine ⟨m + 2, by omega, ?_⟩
      rw [he, hz, Function.update_same]
      have hstep : pIter p (m + 2) y = p (p (pIter p m y)) := by
        rw [pIter_succ' p (m+1), pIter_succ']
      rw [hstep, hz]
    · refine ⟨m + 1, by omega, ?_⟩
      rw [he, Function.update_noteq hz]
      exact (pIter_succ' p m y).symm

theorem halve_root {p : α → α} {x : α} (hx : p x ≠ x) {r : α}
    (hr : p r = r) : Function.update p x (p (p x)) r = r := by
  have hrx : r ≠ x := by
    intro h
    exact hx (h ▸ hr)
  rw [Function.update_noteq hrx]
  exact hr

theorem halve_bnd {p : α → α} {x : α} {n : ℕ} (hb : Bnd p n)
    (hx : p x ≠ x) :
    Bnd (Function.update p x (p (p x))) n ∧
      ∀ y, pIter (Function.update p x (p (p x))) n y = pIter p n y := by
  have key : ∀ y, pIter (Function.update p x (p (p x))) n y = pIter p n y := by
    intro y
    obtain ⟨m, hm, he⟩ := halve_step hx y n
    rw [he, pIter_eq_of_bnd_le hb hm]
  refine ⟨?_, key⟩
  intro y
  rw [key y]
  exact halve_root hx (hb y)

/-- `_find(x)`: while-loop with path halving, returning the updated
parent map and the root.  Fuel bounds the iteration count. -/
def ufFind (p : α → α) (x : α) : ℕ → (α → α) × α
  | 0 => (p, x)
  | fuel + 1 =>
    if p x = x then (p, x)
    else ufFind (Function.update p x (p (p x))) (p (p x)) fuel

theorem ufFind_spec {n : ℕ} :
    ∀ (fuel : ℕ) (p : α → α) (x : α) (d : ℕ), Bnd p n →
      p (pIter p d x) = pIter p d x → d ≤ fuel →
      (ufFind p x fuel).2 = pIter p d x ∧
        Bnd (ufFind p x fuel).1 n ∧
        ∀ y, pIter (ufFind p x fuel).1 n y = pIter p n y := by
  intro fuel
  induction fuel with
  | zero =>
    intro p x d hb hroot hd
    have hd0 : d = 0 := by omega
    subst hd0
    exact ⟨rfl, hb, fun _ => rfl⟩
  | succ f ih =>
    intro p x d hb hroot hd
    by_cases hpx : p x = x
    · simp only [ufFind, if_pos hpx]
      refine ⟨(pIter_fix hpx d).symm, hb, ?_⟩
      simp
    · simp only [ufFind, if_neg hpx]
      obtain ⟨hb', heq'⟩ := halve_bnd hb hpx
      match d with
      | 0 => exact absurd hroot hpx
      | 1 =>
        have hroot1 : p (p x) = p x := hroot
        have hg : Function.update p x (p (p x)) (p (p x)) = p (p x) := by
          rw [hroot1, Function.update_noteq hpx]
          exact hroot1
        have := ih (Function.update p x (p (p x))) (p (p x)) 0 hb' hg
          (Nat.zero_le _)
        refine ⟨?_, this.2.1, fun y => (this.2.2 y).trans (heq' y)⟩
        rw [this.1]
        exact hroot1
      | (d' + 2) =>
        -- pIter p (d'+2) x = pIter p d' (p (p x))
        have hsplit : ∀ k, pIter p (k + 2) x = pIter p k (p (p x)) := by
          intro k
          have : k + 2 = 2 + k := by omega
          rw [this, pIter_add]
          rfl
        have hrootg : p (pIter p d' (p (p x))) = pIter p d' (p (p x)) := by
          rw [← hsplit]
          exact hroot
        -- transfer the depth bound to the halved map
        obtain ⟨m, hm, he⟩ := halve_step hpx (p (p x)) d'
        have hrootg' :
            Function.update p x (p (p x))
                (pIter (Function.update p x (p (p x))) d' (p (p x))) =
              pIter (Function.update p x (p (p x))) d' (p (p x)) := by
          have hmeq : pIter p m (p (p x)) = pIter p d' (p (p x)) := by
            have hsplit2 : m = d' + (m - d') := by omega
            rw [hsplit2, pIter_add, pIter_fix hrootg]
          rw [he, hmeq]
          exact halve_root hpx hrootg
        have := ih (Function.update p x (p (p x))) (p (p x)) d' hb' hrootg'
          (by omega)
        refine ⟨?_, this.2.1, fun y => (this.2.2 y).trans (heq' y)⟩
        rw [this.1, he]
        have hmeq : pIter p m (p (p x)) = pIter p d' (p (p x)) := by
          have hsplit2 : m = d' + (m - d') := by omega
          rw [hsplit2, pIter_add, pIter_fix hrootg]
        rw [hmeq, ← hsplit]

/-- `_union(x, y)`: find both roots (mutating the map), then graft one
root onto the other when they differ. -/
def ufUnion (p : α → α) (x y : α) (fuel : ℕ) : α → α :=
  let r1 := ufFind p x fuel
  let r2 := ufFind r1.1 y fuel
  if r1.2 = r2.2 then r2.1 else Function.update r2.1 r1.2 r2.2

/- Lemmas about grafting one root under another:
`q = Function.update p2 px py` with px ≠ py, both p2-roots. -/

theorem graft_cases {p2 : α → α} {px py : α} {n : ℕ} (hb : Bnd p2 n)
    (hne : px ≠ py) (hpx : p2 px = px) (hpy : p2 py = py) :
    ∀ k y, k ≤ n + 1 →
      pIter (Function.update p2 px py) k y = pIter p2 k y ∨
        (pIter p2 n y = px ∧ pIter (Function.update p2 px py) k y = py) := by
  intro k
  induction k with
  | zero => intro y _; exact Or.inl rfl
  | succ j ih =>
    intro y hj
    rcases ih y (by omega) with hl | ⟨hr1, hr2⟩
    · rw [pIter_succ', hl]
      by_cases hz : pIter p2 j y = px
      · right
        constructor
        · have : pIter p2 n y = pIter p2 ((n - j) + j) y := by
            congr 1
            omega
          rw [this, Nat.add_comm, pIter_add, hz, pIter_fix hpx]
        · rw [hz, Function.update_same]
      · left
        rw [Function.update_noteq hz]
        exact (pIter_succ' p2 j y).symm
    · right
      refine ⟨hr1, ?_⟩
      rw [pIter_succ', hr2, Function.update_noteq (Ne.symm hne), hpy]

theorem graft_root_eq_of {p2 : α → α} {px py : α} {n : ℕ} (hb : Bnd p2 n)
    (hne : px ≠ py) (hpx : p2 px = px) (hpy : p2 py = py) {y : α}
    (hy : pIter p2 n y = px) :
    pIter (Function.update p2 px py) (n + 1) y = py := by
  rcases graft_cases hb hne hpx hpy n y (by omega) with hl | ⟨_, hr⟩
  · rw [pIter_succ', hl, hy, Function.update_same]
  · rw [pIter_succ', hr, Function.update_noteq (Ne.symm hne), hpy]

theorem graft_root_ne_of {p2 : α → α} {px py : α} {n : ℕ} (hb : Bnd p2 n)
    (hne : px ≠ py) (hpx : p2 px = px) (hpy : p2 py = py) {y : α}
    (hy : pIter p2 n y ≠ px) :
    pIter (Function.update p2 px py) (n + 1) y = pIter p2 n y := by
  rcases graft_cases hb hne hpx hpy (n + 1) y (le_refl _) with hl | ⟨hr1, _⟩
  · rw [hl, pIter_eq_of_bnd_le hb (Nat.le_succ n)]
  · exact absurd hr1 hy

theorem graft_bnd {p2 : α → α} {px py : α} {n : ℕ} (hb : Bnd p2 n)
    (hne : px ≠ py) (hpx : p2 px = px) (hpy : p2 py = py) :
    Bnd (Function.update p2 px py) (n + 1) := by
  intro y
  by_cases hy : pIter p2 n y = px
  · rw [graft_root_eq_of hb hne hpx hpy hy,
      Function.update_noteq (Ne.symm hne), hpy]
  · rw [graft_root_ne_of hb hne hpx hpy hy]
    have hroot : p2 (pIter p2 n y) = pIter p2 n y := hb y
    rw [Function.update_noteq hy, hroot]

theorem ufUnion_spec {p : α → α} {n fuel : ℕ} (hb : Bnd p n)
    (hfuel : n ≤ fuel) (a b : α) :
    Bnd (ufUnion p a b fuel) (n + 1) ∧
      pIter (ufUnion p a b fuel) (n + 1) a =
        pIter (ufUnion p a b fuel) (n + 1) b ∧
      ∀ u v, pIter p n u = pIter p n v →
        pIter (ufUnion p a b fuel) (n + 1) u =
          pIter (ufUnion p a b fuel) (n + 1) v := by
  obtain ⟨h1v, h1b, h1e⟩ := ufFind_spec fuel p a n hb (hb a) hfuel
  set p1 := (ufFind p a fuel).1 with hp1
  set ra := (ufFind p a fuel).2 with hra
  obtain ⟨h2v, h2b, h2e⟩ := ufFind_spec fuel p1 b n h1b (h1b b) hfuel
  set p2 := (ufFind p1 b fuel).1 with hp2
  set rb := (ufFind p1 b fuel).2 with hrb
  have hra' : ra = pIter p n a := h1v
  have hrb' : rb = pIter p n b := by rw [h2v, h1e b]
  have h2e' : ∀ y, pIter p2 n y = pIter p n y := fun y =>
    (h2e y).trans (h1e y)
  have hra_root : p ra = ra := by rw [hra']; exact hb a
  have hrb_root : p rb = rb := by rw [hrb']; exact hb b
  have hra_root2 : p2 ra = ra := root_transfer h2b h2e' hra_root
  have hrb_root2 : p2 rb = rb := root_transfer h2b h2e' hrb_root
  by_cases heq : ra = rb
  · have hRes : ufUnion p a b fuel = p2 := by
      simp only [ufUnion, ← hp1, ← hra, ← hp2, ← hrb, if_pos heq]
    rw [hRes]
    refine ⟨bnd_mono h2b (Nat.le_succ n), ?_, ?_⟩
    · rw [pIter_eq_of_bnd_le h2b (Nat.le_succ n) a,
        pIter_eq_of_bnd_le h2b (Nat.le_succ n) b, h2e', h2e', ← hra', ← hrb',
        heq]
    · intro u v huv
      rw [pIter_eq_of_bnd_le h2b (Nat.le_succ n) u,
        pIter_eq_of_bnd_le h2b (Nat.le_succ n) v, h2e', h2e', huv]
  · have hRes : ufUnion p a b fuel = Function.update p2 ra rb := by
      simp only [ufUnion, ← hp1, ← hra, ← hp2, ← hrb, if_neg heq]
    rw [hRes]
    refine ⟨graft_bnd h2b heq hra_root2 hrb_root2, ?_, ?_⟩
    · have hA : pIter p2 n a = ra := by rw [h2e' a, hra']
      have hB : pIter p2 n b = rb := by rw [h2e' b, hrb']
      rw [graft_root_eq_of h2b heq hra_root2 hrb_root2 hA,
        graft_root_ne_of h2b heq hra_root2 hrb_root2 (hB ▸ Ne.symm heq), hB]
    · intro u v huv
      have huv2 : pIter p2 n u = pIter p2 n v := by
        rw [h2e', h2e', huv]
      by_cases hu : pIter p2 n u = ra
      · rw [graft_root_eq_of h2b heq hra_root2 hrb_root2 hu,
          graft_root_eq_of h2b heq hra_root2 hrb_root2 (huv2 ▸ hu)]
      · rw [graft_root_ne_of h2b heq hra_root2 hrb_root2 hu,
          graft_root_ne_of h2b heq hra_root2 hrb_root2 (huv2 ▸ hu), huv2]

/-- Processing the retained edge list: `for a, b, _, _ in edges: _union(a, b)`,
starting from the empty parent dict (the identity map). -/
def ufProcess (edges : List (α × α)) (fuel : ℕ) (p : α → α) : α → α :=
  edges.foldl (fun q e => ufUnion q e.1 e.2 fuel) p

theorem ufProcess_spec :
    ∀ (E : List (α × α)) (p : α → α) (n fuel : ℕ), Bnd p n →
      n + E.length ≤ fuel →
      Bnd (ufProcess E fuel p) (n + E.length) ∧
        (∀ e ∈ E, pIter (ufProcess E fuel p) (n + E.length) e.1 =
          pIter (ufProcess E fuel p) (n + E.length) e.2) ∧
        ∀ u v, pIter p n u = pIter p n v →
          pIter (ufProcess E fuel p) (n + E.length) u =
            pIter (ufProcess E fuel p) (n + E.length) v := by
  intro E
  induction E with
  | nil =>
    intro p n fuel hb _
    exact ⟨hb, fun e he => absurd he (List.not_mem_nil e), fun u v h => h⟩
  | cons e E' ih =>
    intro p n fuel hb hfuel
    have hfe : n ≤ fuel := by
      have := hfuel
      simp only [List.length_cons] at this
      omega
    obtain ⟨hb1, hcon1, hpre1⟩ := ufUnion_spec hb hfe e.1 e.2
    have hfuel' : (n + 1) + E'.length ≤ fuel := by
      simp only [List.length_cons] at hfuel
      omega
    obtain ⟨hb2, hcon2, hpre2⟩ :=
      ih (ufUnion p e.1 e.2 fuel) (n + 1) fuel hb1 hfuel'
    have hlen : (n + 1) + E'.length = n + (e :: E').length := by
      simp only [List.length_cons]
      omega
    have hProc : ufProcess (e :: E') fuel p =
        ufProcess E' fuel (ufUnion p e.1 e.2 fuel) := rfl
    rw [hProc, ← hlen]
    refine ⟨hb2, ?_, ?_⟩
    · intro e' he'
      rcases List.mem_cons.mp he' with h | h
      · subst h
        exact hpre2 e'.1 e'.2 hcon1
      · exact hcon2 e' h
    · intro u v huv
      exact hpre2 u v (hpre1 u v huv)

/-- The cluster-building pass: `for a, b, _, _ in edges: root = _find(a);
clusters_map[root].add(a); clusters_map[root].add(b)`.  The defaultdict of
sets is modelled as a function to membership lists. -/
def buildClusters (edges : List (α × α)) (fuel : ℕ)
    (p : α → α) (m : α → List α) : (α → α) × (α → List α) :=
  edges.foldl
    (fun st e =>
      let fr := ufFind st.1 e.1 fuel
      (fr.1, fun k => if k = fr.2 then e.1 :: e.2 :: st.2 k else st.2 k))
    (p, m)

theorem buildClusters_spec :
    ∀ (E : List (α × α)) (p : α → α) (m : α → List α) (n fuel : ℕ),
      Bnd p n → n ≤ fuel →
      (∀ k z, z ∈ m k → z ∈ (buildClusters E fuel p m).2 k) ∧
        ∀ e ∈ E, e.1 ∈ (buildClusters E fuel p m).2 (pIter p n e.1) ∧
          e.2 ∈ (buildClusters E fuel p m).2 (pIter p n e.1) := by
  intro E
  induction E with
  | nil =>
    intro p m n fuel _ _
    exact ⟨fun _ _ h => h, fun e he => absurd he (List.not_mem_nil e)⟩
  | cons e E' ih =>
    intro p m n fuel hb hfuel
    obtain ⟨hv, hb1, he1⟩ := ufFind_spec fuel p e.1 n hb (hb e.1) hfuel
    have hstep : buildClusters (e :: E') fuel p m =
        buildClusters E' fuel (ufFind p e.1 fuel).1
          (fun k => if k = (ufFind p e.1 fuel).2 then
            e.1 :: e.2 :: m k else m k) := rfl
    rw [hstep]
    obtain ⟨hmono, hmem⟩ := ih (ufFind p e.1 fuel).1
      (fun k => if k = (ufFind p e.1 fuel).2 then e.1 :: e.2 :: m k else m k)
      n fuel hb1 hfuel
    refine ⟨?_, ?_⟩
    · intro k z hz
      apply hmono
      by_cases hk : k = (ufFind p e.1 fuel).2
      · simp only [if_pos hk]
        exact List.mem_cons_of_mem _ (List.mem_cons_of_mem _ hz)
      · simp only [if_neg hk]
        exact hz
    · intro e' he'
      rcases List.mem_cons.mp he' with h | h
      · subst h
        constructor
        · apply hmono
          simp only [hv, if_pos rfl]
          exact List.mem_cons_self _ _
        · apply hmono
          simp only [hv, if_pos rfl]
          exact List.mem_cons_of_mem _ (List.mem_cons_self _ _)
      · have := hmem e' h
        rw [he1 e'.1] at this
        exact this

/- ── Churn engine data model (render_churn, src/lib/render.py) ──────

A parsed commit from `git log --numstat` (_parse_churn_log output),
already reversed into chronological order.  `files` holds
`(path, added + deleted)` pairs.  The include/exclude glob filter
`_file_matches_filters` calls the stdlib `fnmatch` collaborator; it is
abstracted as a `keep : String → Bool` predicate parameter. -/

structure GitCommit where
  author : String
  files : List (String × ℕ)
deriving DecidableEq

/-- Sort modes accepted by `--sort` (lines, commits, init). -/
inductive SortMode where
  | lines
  | commits
  | init
deriving DecidableEq

/-- Parsed command-line parameters of render_churn. -/
structure ChurnParams where
  topN : ℕ
  bucket : Option ℕ
  sortMode : SortMode
  minLines : ℕ
  minContinuity : ℚ
  minCoupling : ℚ
  keep : String → Bool
  authorFilters : List String

/-- `any(af in commit.author.lower() for af in author_filters)` (the
filters are already lowercased by the argument parser). -/
def authorMatches (afs : List String) (cm : GitCommit) : Bool :=
  afs.any (fun af => decide (af.data <:+: (cm.author.map Char.toLower).data))

/-- `_auto_churn_bucket_size`: choose commits-per-bucket to target ~50
buckets (prefer 30-60 when possible).  Python's `round(n / 50)` and
`math.ceil`/`math.floor` on the float quotients are modelled by exact
rational/Nat arithmetic. -/
def autoChurnBucketSize (n : ℕ) : ℕ :=
  if n = 0 then 1
  else if n ≤ 60 then 1
  else
    let bucketSize := max 1 (pyRound ((n : ℚ) / 50)).toNat
    let numBuckets := ceilNat n bucketSize
    if 60 < numBuckets then max 1 (ceilNat n 60)
    else if numBuckets < 30 then max 1 (n / 30)
    else bucketSize

/-- Sum of line deltas a single commit contributes to file `f`
(the per-entry `file_buckets[filename][bucket_idx] += changes`). -/
def entryChanges (keep : String → Bool) (cm : GitCommit) (f : String) : ℕ :=
  ((cm.files.filter (fun fc => keep fc.1 && fc.1 == f)).map (fun fc => fc.2)).sum

/-- Value of bucket `bi` in the per-file activity vector. -/
def fileBucketVal (keep : String → Bool) (bs : ℕ) (commits : List GitCommit)
    (f : String) (bi : ℕ) : ℕ :=
  ((commits.enum.filter (fun ic => ic.1 / bs == bi)).map
    (fun ic => entryChanges keep ic.2 f)).sum

/-- The per-file activity vector `file_buckets[f]` (length num_buckets). -/
def fileBucketsVec (keep : String → Bool) (bs numB : ℕ)
    (commits : List GitCommit) (f : String) : List ℕ :=
  (List.range numB).map (fileBucketVal keep bs commits f)

/-- `file_first_seen[f]`: index of the first commit with a kept entry
for `f`. -/
def fileFirstSeen (keep : String → Bool) (commits : List GitCommit)
    (f : String) : Option ℕ :=
  commits.findIdx? (fun cm => cm.files.any (fun fc => keep fc.1 && fc.1 == f))

/-- `file_commits[f]`: incremented once per kept entry naming `f`. -/
def fileCommits (keep : String → Bool) (commits : List GitCommit)
    (f : String) : ℕ :=
  (commits.map
    (fun cm => (cm.files.filter (fun fc => keep fc.1 && fc.1 == f)).length)).sum

/-- `file_total[f]`: total changed lines accumulated for `f`. -/
def fileTotal (keep : String → Bool) (commits : List GitCommit)
    (f : String) : ℕ :=
  (commits.map (fun cm => entryChanges keep cm f)).sum

/-- `file_buckets.keys()` in dict insertion order: every file with a kept
entry, ordered by first touch. -/
def touchedFiles (keep : String → Bool) (commits : List GitCommit) :
    List String :=
  firstDedup
    ((commits.map
      (fun cm => (cm.files.filter (fun fc => keep fc.1)).map (fun fc => fc.1))).join)

/-- Continuity of a file (render_churn "Sustained Development Files"):
`active_buckets_since_first_seen / buckets_since_first_seen`, defined
only when `num_buckets >= 3` and at least 2 buckets are possible. -/
def fileContinuity (keep : String → Bool) (bs numB : ℕ)
    (commits : List GitCommit) (f : String) : Option ℚ :=
  if 3 ≤ numB then
    match fileFirstSeen keep commits f with
    | none => none
    | some ci0 =>
      let firstB := ci0 / bs
      let possible := numB - firstB
      if possible < 2 then none
      else
        let active := ((fileBucketsVec keep bs numB commits f).drop
          firstB).countP (fun v => decide (0 < v))
        some ((active : ℚ) / (possible : ℚ))
  else none

/-- Lexicographic order on (commits, lines) keys (Python tuple `<=`). -/
def natPairLe (x y : ℕ × ℕ) : Prop :=
  x.1 < y.1 ∨ (x.1 = y.1 ∧ x.2 ≤ y.2)

instance : DecidableRel natPairLe := fun x y => by
  unfold natPairLe
  infer_instance

/-- The ranked file list of the churn table: stable sort of the eligible
files by the chosen key, truncated to top N.  Timsort (stable) is
modelled by List.insertionSort (also stable) on the same key order;
`reverse=True` keeps equal-key elements in first-touch order. -/
def churnSortedFiles (params : ChurnParams) (commits : List GitCommit) :
    List String :=
  let eligible0 := touchedFiles params.keep commits
  let eligible := if 0 < params.minLines then
      eligible0.filter
        (fun f => decide (params.minLines ≤ fileTotal params.keep commits f))
    else eligible0
  match params.sortMode with
  | SortMode.commits =>
    (eligible.insertionSort
      (fun a b =>
        natPairLe (fileCommits params.keep commits b, fileTotal params.keep commits b)
          (fileCommits params.keep commits a, fileTotal params.keep commits a))).take
      params.topN
  | SortMode.init =>
    (eligible.insertionSort
      (fun a b =>
        (fileFirstSeen params.keep commits a).getD 0 <
            (fileFirstSeen params.keep commits b).getD 0 ∨
          ((fileFirstSeen params.keep commits a).getD 0 =
              (fileFirstSeen params.keep commits b).getD 0 ∧
            strLe a b = true))).take params.topN
  | SortMode.lines =>
    (eligible.insertionSort
      (fun a b =>
        fileTotal params.keep commits b ≤ fileTotal params.keep commits a)).take
      params.topN

/- ── Co-change coupling (render_churn, Jaccard + Union-Find) ───────── -/

/-- Commits counted toward coupling: between 2 and MAX_FILES_PER_COMMIT
(50) distinct kept files. -/
def commitSizeOK (s : List String) : Bool :=
  decide (2 ≤ s.length) && decide (s.length ≤ 50)

/-- The per-commit set of kept filenames (`commit_filtered`). -/
def commitFileSet (keep : String → Bool) (cm : GitCommit) : List String :=
  firstDedup ((cm.files.filter (fun fc => keep fc.1)).map (fun fc => fc.1))

/-- `commit_file_sets`, one per commit. -/
def commitFileSets (keep : String → Bool) (commits : List GitCommit) :
    List (List String) :=
  commits.map (commitFileSet keep)

/-- `co_count[(a, b)]`: number of qualifying commits whose file set
contains both `a` and `b`. -/
def coCount (sets : List (List String)) (a b : String) : ℕ :=
  (sets.filter (fun s => commitSizeOK s && s.contains a && s.contains b)).length

/-- Ordered pairs produced by `combinations(l, 2)`. -/
def listPairs : List String → List (String × String)
  | [] => []
  | x :: xs => xs.map (fun y => (x, y)) ++ listPairs xs

/-- The distinct keys of the `co_count` Counter, in insertion order:
pairs from `combinations(sorted(file_set), 2)` over qualifying commits. -/
def coPairs (sets : List (List String)) : List (String × String) :=
  firstDedup
    (((sets.filter commitSizeOK).map
      (fun s => listPairs (s.insertionSort (fun a b => strLe a b = true)))).join)

/-- `jaccard = co_commits / (commits(a) + commits(b) - co_commits)`. -/
def jaccardOf (sets : List (List String)) (commitsOf : String → ℕ)
    (a b : String) : ℚ :=
  (coCount sets a b : ℚ) /
    ((commitsOf a : ℚ) + (commitsOf b : ℚ) - (coCount sets a b : ℚ))

/-- A retained coupling edge `(a, b, jaccard, co_commits)`. -/
structure CouplingEdge where
  a : String
  b : String
  jaccard : ℚ
  co : ℕ

/-- The retained edge list: pairs with `co_commits >= MIN_CO_COMMITS`
(2) and `jaccard >= min_coupling`. -/
def retainedEdges (sets : List (List String)) (commitsOf : String → ℕ)
    (minCoupling : ℚ) : List CouplingEdge :=
  (coPairs sets).filterMap (fun pr =>
    let c := coCount sets pr.1 pr.2
    if 2 ≤ c then
      if minCoupling ≤ jaccardOf sets commitsOf pr.1 pr.2 then
        some ⟨pr.1, pr.2, jaccardOf sets commitsOf pr.1 pr.2, c⟩
      else none
    else none)

/-- Union-Find over the retained edges followed by the cluster-grouping
pass; yields the `clusters_map` membership function.  The fuel bound
`|edges| + 1` dominates every `_find` chain length (ufFind_spec). -/
def couplingClusters (edges : List CouplingEdge) : String → List String :=
  let prs := edges.map (fun e => (e.a, e.b))
  let fuel := prs.length + 1
  (buildClusters prs fuel (ufProcess prs fuel (fun x => x)) (fun _ => [])).2

/- ── render_churn top level ───────────────────────────────────────── -/

/-- The structured result of a successful churn render. -/
structure ChurnReport where
  bucketSize : ℕ
  numBuckets : ℕ
  sortedFiles : List String
  continuity : String → Option ℚ
  edges : List CouplingEdge
  clusters : String → List String

/-- `--bucket` handling: explicit positive size or auto. -/
def churnBucketSize (params : ChurnParams) (commits : List GitCommit) : ℕ :=
  match params.bucket with
  | none => autoChurnBucketSize commits.length
  | some b => b

/-- render_churn: the early-return guards, then the aggregation
pipeline.  `Sum.inl` carries the lines printed by an early return. -/
def renderChurn (params : ChurnParams) (commits0 : List GitCommit) :
    Sum (List String) ChurnReport :=
  if commits0.isEmpty then Sum.inl ["*(no commit history found)*"]
  else
    let commits := if params.authorFilters.isEmpty then commits0
      else commits0.filter (authorMatches params.authorFilters)
    if commits.isEmpty then
      Sum.inl ["*(no commits match the specified author filter)*"]
    else
      let bs := churnBucketSize params commits
      let numB := ceilNat commits.length bs
      let sorted := churnSortedFiles params commits
      if sorted.isEmpty then
        Sum.inl ["*(no files match the specified filters)*"]
      else
        let sets := commitFileSets params.keep commits
        Sum.inr
          { bucketSize := bs
            numBuckets := numB
            sortedFiles := sorted
            continuity := fileContinuity params.keep bs numB commits
            edges := retainedEdges sets (fileCommits params.keep commits)
              params.minCoupling
            clusters := couplingClusters (retainedEdges sets
              (fileCommits params.keep commits) params.minCoupling) }

/- ── primer_insights continuity (compute_file_continuity) ──────────
The git subprocess parsing is a collaborator; input is the chronological
list of per-commit touched-file lists (already intersected with the
tracked set). -/

/-- `bucket_size = max(1, round(len(commits) / max(1, target_buckets)))`. -/
def primerBucketSize (commits : List (List String)) (targetBuckets : ℕ) : ℕ :=
  max 1 (pyRound ((commits.length : ℚ) / (max 1 targetBuckets : ℚ))).toNat

/-- `num_buckets = max(1, ceil(len(commits) / bucket_size))`. -/
def primerNumBuckets (commits : List (List String)) (targetBuckets : ℕ) : ℕ :=
  max 1 (ceilNat commits.length (primerBucketSize commits targetBuckets))

/-- `first_bucket[rel]`. -/
def primerFirstBucket (commits : List (List String)) (bs : ℕ)
    (rel : String) : Option ℕ :=
  (commits.findIdx? (fun s => s.contains rel)).map (fun i => i / bs)

/-- `active_buckets[rel]` as a duplicate-free list (the Python set). -/
def primerActiveBuckets (commits : List (List String)) (bs : ℕ)
    (rel : String) : List ℕ :=
  firstDedup (commits.enum.filterMap
    (fun ic => if ic.2.contains rel then some (ic.1 / bs) else none))

/-- compute_file_continuity restricted to one file: `active / possible`
when `possible > 0`, undefined otherwise (and on empty history the
function returns an empty dict). -/
def computeFileContinuity (commits : List (List String))
    (targetBuckets : ℕ) (rel : String) : Option ℚ :=
  if commits.isEmpty then none
  else
    let bs := primerBucketSize commits targetBuckets
    let numB := primerNumBuckets commits targetBuckets
    match primerFirstBucket commits bs rel with
    | none => none
    | some firstB =>
      let possible := numB - firstB
      if possible = 0 then none
      else
        some (((primerActiveBuckets commits bs rel).countP
            (fun b => decide (firstB ≤ b)) : ℚ) / (possible : ℚ))

/- ── Critical-path ranker (build_critical_scores, primer_insights.py) ── -/

/-- `_is_fixture`: `"tests/fixtures/" in rel or rel.startswith(...)` (the
startswith is subsumed by the substring test). -/
def isFixture (rel : String) : Prop := "tests/fixtures/".data <:+: rel.data

instance : DecidablePred isFixture := fun rel => by
  unfold isFixture
  infer_instance

/-- Extension part of `os.path.splitext` applied to a basename: the last
'.'-suffix, provided some non-dot character precedes the dot. -/
def extSplit (base : List Char) : List Char :=
  let r := base.reverse
  let suf := r.takeWhile (fun c => c ≠ '.')
  if suf.length = r.length then []
  else
    let pre := r.drop (suf.length + 1)
    if pre.any (fun c => c ≠ '.') then '.' :: suf.reverse else []

/-- `os.path.splitext(rel)[1].lower()` for POSIX-style relative paths. -/
def extOf (rel : String) : String :=
  String.mk ((extSplit ((splitSlash rel).getLastD "").data).map Char.toLower)

/-- Recognized source-code extensions (+1.5 bonus). -/
def srcExts : List String :=
  [".py", ".sh", ".bash", ".js", ".jsx", ".ts", ".tsx",
   ".go", ".rb", ".rs", ".java", ".c", ".cc", ".cpp"]

/-- Documentation extensions (−0.8 penalty). -/
def docExts : List String := [".md", ".rst", ".txt", ".ipynb"]

/-- `code_bonus` by extension category. -/
def codeTypeBonus (rel : String) : ℚ :=
  if srcExts.contains (extOf rel) then 1.5
  else if docExts.contains (extOf rel) then -0.8
  else 0

/-- A dispatch-table entry `(command, entry_file, source_file, handler)`. -/
structure DispatchEntry where
  command : String
  entryFile : String
  sourceFile : String
  handler : String

/-- Inputs of build_critical_scores.  `testPathHits` and `symbolCounts`
stand for the regex-derived counters (`path_pattern.findall` over test
texts and `symbol_re.findall` over texts); regex heuristics are
explicitly out-of-scope collaborators and enter as opaque counters. -/
structure CritInputs where
  files : List String
  lineCounts : String → ℕ
  entrypoints : List String
  dispatchEntries : List DispatchEntry
  commandHits : List (String × ℕ)
  edges : List (String × List String)
  testPathHits : String → ℕ
  symbolCounts : String → ℕ

/-- `inbound[dep] += 1` over every dep of every source. -/
def inboundCount (edges : List (String × List String)) (rel : String) : ℕ :=
  ((edges.map (fun e => e.2)).join.filter (fun d => d == rel)).length

/-- `dispatch_targets[d.source_file] += 1` for entries with a truthy
source_file. -/
def dispatchTargets (ds : List DispatchEntry) (rel : String) : ℕ :=
  (ds.filter (fun d => !(d.sourceFile == "") && d.sourceFile == rel)).length

/-- `command_to_source[d.command] = d.source_file` (last assignment
wins). -/
def commandToSource (ds : List DispatchEntry) (cmd : String) :
    Option String :=
  ((ds.filter (fun d => !(d.sourceFile == "") && d.command == cmd)).getLast?).map
    (fun d => d.sourceFile)

/-- `command_touch[source] += hits` for each command with a known
source. -/
def commandTouch (ds : List DispatchEntry) (hits : List (String × ℕ))
    (rel : String) : ℕ :=
  (hits.filterMap (fun ch =>
    match commandToSource ds ch.1 with
    | some s => if s == rel then some ch.2 else none
    | none => none)).sum

/-- One output row `(rel, score, components)`. -/
structure CritEntry where
  rel : String
  score : ℚ
  entry : ℚ
  dispatch : ℚ
  fanin : ℚ
  test : ℚ
deriving DecidableEq

/-- Signals and the blended critical score for one file. -/
def critSignals (inp : CritInputs) (rel : String) : CritEntry :=
  let entry : ℚ := if inp.entrypoints.contains rel then 1 else 0
  let dispatch : ℚ := (dispatchTargets inp.dispatchEntries rel : ℚ)
  let fanin : ℚ := (inboundCount inp.edges rel : ℚ)
  let testRef : ℚ :=
    ((inp.testPathHits rel + commandTouch inp.dispatchEntries inp.commandHits rel : ℕ) : ℚ)
  let lines : ℚ := (inp.lineCounts rel : ℚ)
  let sym : ℚ := (inp.symbolCounts rel : ℚ)
  { rel := rel
    score := 6 * entry + 4 * dispatch + 3 * fanin + 2 * testRef +
      min (lines / 300) 2 + min (sym / 8) 2 + codeTypeBonus rel
    entry := entry
    dispatch := dispatch
    fanin := fanin
    test := testRef }

/-- The `lines == 0 and entry == 0 and dispatch == 0 and fanin == 0 and
test_ref == 0` drop condition. -/
def critAllZero (inp : CritInputs) (rel : String) : Prop :=
  (inp.lineCounts rel : ℚ) = 0 ∧ (critSignals inp rel).entry = 0 ∧
    (critSignals inp rel).dispatch = 0 ∧ (critSignals inp rel).fanin = 0 ∧
    (critSignals inp rel).test = 0

instance : ∀ inp rel, Decidable (critAllZero inp rel) := fun inp rel => by
  unfold critAllZero
  infer_instance

/-- Ascending order on the sort key `(-score, rel)`. -/
def critLe (x y : CritEntry) : Prop :=
  y.score < x.score ∨ (x.score = y.score ∧ strLe x.rel y.rel = true)

instance : DecidableRel critLe := fun x y => by
  unfold critLe
  infer_instance

/-- build_critical_scores: the selection loop, then
`scores.sort(key=lambda x: (-x[1], x[0]))` and `scores[:12]`. -/
def buildCriticalScores (inp : CritInputs) : List CritEntry :=
  let raw := inp.files.foldr (fun rel acc =>
    if isFixture rel then acc
    else if critAllZero inp rel then acc
    else if (critSignals inp rel).score > 0.2 then critSignals inp rel :: acc
    else acc) []
  (raw.insertionSort critLe).take 12

/-- Spec-side rendering of claim C2's words (for comparison with the
code): drop only files with all-zero signals and zero size, score, sort
descending with path tie-break, truncate to 12, dropping no other
file. -/
def criticalScoresClaim (inp : CritInputs) : List CritEntry :=
  (((inp.files.filter (fun rel => !(decide (critAllZero inp rel)))).map
    (critSignals inp)).insertionSort critLe).take 12

/-- Spec-side rendering of the amended claim: additionally drop fixture
paths and files whose blended score is ≤ 0.2. -/
def criticalScoresAmended (inp : CritInputs) : List CritEntry :=
  (((inp.files.filter (fun rel =>
      !(decide (isFixture rel)) && !(decide (critAllZero inp rel)) &&
        decide ((critSignals inp rel).score > 0.2))).map
    (critSignals inp)).insertionSort critLe).take 12

/- ── Importance scorer (_compute_importance, _file_symbol_importance;
src/lib/render.py).  math.log2 is modelled over the reals. ── -/

open Real in
/-- `_compute_importance`: directory importance for expansion priority. -/
noncomputable def computeImportance (fileCount totalLoc churnLines
    hotCount : ℝ) (hasChurn : Bool) : ℝ :=
  if hasChurn then
    0.4 * logb 2 (1 + fileCount) + 0.2 * logb 2 (1 + totalLoc / 100) +
      0.25 * logb 2 (1 + churnLines / 100) + 0.15 * logb 2 (1 + hotCount)
  else
    0.5 * logb 2 (1 + fileCount) + 0.5 * logb 2 (1 + totalLoc / 100)

open Real in
/-- `_file_symbol_importance`: file importance for symbol-map
prioritization. -/
noncomputable def fileSymbolImportance (loc churnCommits churnLines : ℝ)
    (hasChurn : Bool) : ℝ :=
  if hasChurn then
    0.25 * logb 2 (1 + loc / 100) + 0.40 * logb 2 (1 + churnLines / 100) +
      0.35 * logb 2 (1 + churnCommits)
  else logb 2 (1 + loc / 100)

/- ── Budgeted tree renderer (render_budgeted_tree_lines,
src/lib/render.py) ──────────────────────────────────────────────────

The nested `tree` dict (name → subtree dict) becomes a nested inductive;
the `stats` dict keeps the fields the renderer reads.  The `_partial` /
`_partial_remaining` markers the Python code stashes inside the stats
dict are modelled as a separate map in the loop state.  The heap of
`(-importance, path)` keys is modelled as a list from which `popMin`
extracts the minimum (heap keys are distinct, so pop order is exactly
key order). -/

inductive PTree where
  | node : List (String × PTree) → PTree

/-- Children of a tree node. -/
def PTree.children : PTree → List (String × PTree)
  | .node cs => cs

/-- Total number of entries in a forest (used as a fuel bound). -/
def treeListSize : List (String × PTree) → ℕ
  | [] => 0
  | (_, .node cs) :: rest => 1 + treeListSize cs + treeListSize rest

/-- The stats-dict fields read by the budgeted renderer. -/
structure DirStats where
  importance : ℚ
  fileCount : ℕ
  hotCount : ℕ
  hotFiles : List (String × ℕ)

/-- `is_dir = children or node_path in dirs`. -/
def isDirB (children : List (String × PTree)) (nodePath : String)
    (dirs : List String) : Bool :=
  !children.isEmpty || dirs.contains nodePath

/-- Strict order on heap keys `(-importance, path)`. -/
def keyLtB (x y : ℚ × String) : Bool :=
  if x.1 < y.1 then true
  else if y.1 < x.1 then false
  else strLt x.2 y.2

/-- Extract the minimal heap key and the remaining entries
(heapq.heappop). -/
def popMin : List (ℚ × String) → Option ((ℚ × String) × List (ℚ × String))
  | [] => none
  | k :: ks =>
    match popMin ks with
    | none => some (k, [])
    | some (m, rest) => if keyLtB m k then some (m, k :: rest) else some (k, ks)

/-- `_find_subtree`: navigate the tree dict along path segments. -/
def findSubtree : List String → List (String × PTree) →
    Option (List (String × PTree))
  | [], node => some node
  | part :: rest, node =>
    match node.find? (fun e => e.1 == part) with
    | none => none
    | some e => findSubtree rest e.2.children

/-- Heap entries pushed for the child directories of a just-expanded
directory. -/
def childDirKeys (dirPath : String) (subtree : List (String × PTree))
    (dirs : List String) (stats : String → Option DirStats) :
    List (ℚ × String) :=
  subtree.filterMap (fun e =>
    let childPath := dirPath ++ "/" ++ e.1
    if isDirB e.2.children childPath dirs then
      match stats childPath with
      | some st => some (-st.importance, childPath)
      | none => none
    else none)

/-- Ranking value of a child during partial expansion: directory
importance, else line count / 1000 (0 when no line counts supplied). -/
def childImpVal (dirPath : String) (e : String × PTree)
    (dirs : List String) (stats : String → Option DirStats)
    (lineCounts : Option (String → Option ℕ)) : ℚ :=
  let childPath := dirPath ++ "/" ++ e.1
  if isDirB e.2.children childPath dirs then
    match stats childPath with
    | some st => st.importance
    | none =>
      match lineCounts with
      | some lc => ((lc childPath).getD 0 : ℚ) / 1000
      | none => 0
  else
    match lineCounts with
    | some lc => ((lc childPath).getD 0 : ℚ) / 1000
    | none => 0

/-- `child_items.sort(key=lambda x: -x[0])`: stable descending by
importance. -/
def childOrd (x y : ℚ × String) : Prop := y.1 ≤ x.1

instance : DecidableRel childOrd := fun x y => by
  unfold childOrd
  infer_instance

/-- State of the expansion loop. -/
structure LoopState where
  pq : List (ℚ × String)
  expanded : List String
  partInfo : String → Option (List String × ℕ)
  cost : ℕ

/-- One Python `while pq and current_cost < budget` loop, with fuel
bounding the iteration count (each path is pushed at most once, so any
bound above the node count suffices). -/
def budgetLoop (tree : List (String × PTree)) (dirs : List String)
    (stats : String → Option DirStats)
    (lineCounts : Option (String → Option ℕ)) (budget : ℕ) :
    ℕ → LoopState → LoopState
  | 0, s => s
  | fuel + 1, s =>
    if s.cost < budget then
      match popMin s.pq with
      | none => s
      | some ((_, dirPath), rest) =>
        if s.expanded.contains dirPath then
          budgetLoop tree dirs stats lineCounts budget fuel
            { s with pq := rest }
        else
          match findSubtree (splitSlash dirPath) tree with
          | none =>
            budgetLoop tree dirs stats lineCounts budget fuel
              { s with pq := rest }
          | some subtree =>
            if subtree.length = 0 then
              budgetLoop tree dirs stats lineCounts budget fuel
                { s with pq := rest, expanded := dirPath :: s.expanded }
            else if s.cost + (subtree.length - 1) ≤ budget then
              budgetLoop tree dirs stats lineCounts budget fuel
                { pq := rest ++ childDirKeys dirPath subtree dirs stats
                  expanded := dirPath :: s.expanded
                  partInfo := s.partInfo
                  cost := s.cost + (subtree.length - 1) }
            else
              let remaining := budget - s.cost
              if remaining = 0 then { s with pq := rest }
              else if remaining + 1 < 2 then { s with pq := rest }
              else
                let childItems := (subtree.map (fun e =>
                  (childImpVal dirPath e dirs stats lineCounts, e.1))).insertionSort
                    childOrd
                let showCount := min (remaining + 1 - 1) childItems.length
                if childItems.length ≤ showCount then
                  { pq := rest ++ childDirKeys dirPath subtree dirs stats
                    expanded := dirPath :: s.expanded
                    partInfo := s.partInfo
                    cost := s.cost + (subtree.length - 1) }
                else
                  { pq := rest
                    expanded := dirPath :: s.expanded
                    partInfo := Function.update s.partInfo dirPath
                      (some ((childItems.take showCount).map (fun it => it.2),
                        childItems.length - showCount))
                    cost := s.cost + showCount }
    else s

/-- Alphabetical order on entry names (`sorted(tree.keys())`). -/
def nameLe (x y : String × PTree) : Prop := strLe x.1 y.1 = true

instance : DecidableRel nameLe := fun x y => by
  unfold nameLe
  infer_instance

/-- `_collapsed_dir_annotation`. -/
def collapsedDirNote (nodePath : String)
    (stats : String → Option DirStats) (hasChurn : Bool) : String :=
  match stats nodePath with
  | none => ""
  | some st =>
    let filesPart := if st.fileCount = 1 then "1 file"
      else toString st.fileCount ++ " files"
    let parts :=
      if hasChurn && decide (0 < st.hotCount) then
        let topNames := (st.hotFiles.take 2).map (fun p => basenameOf p.1)
        [filesPart,
          "hot: " ++ toString st.hotCount ++
            (if topNames.isEmpty then ""
             else " — " ++ String.intercalate ", " topNames)]
      else [filesPart]
    "(" ++ String.intercalate "; " parts ++ ")"

/-- `_render_budgeted_lines`: pure render pass over the tree respecting
the recorded expansion decisions.  Fuel bounds the nesting depth. -/
def renderLines (dirs : List String) (stats : String → Option DirStats)
    (partInfo : String → Option (List String × ℕ))
    (expanded : List String) (lineCounts : Option (String → Option ℕ))
    (hasChurn : Bool) :
    ℕ → List (String × PTree) → String → String → List String
  | 0, _, _, _ => []
  | fuel + 1, entries, pfx, pathPfx =>
    let entriesS := entries.insertionSort nameLe
    let pinfo := if pathPfx = "" then none else partInfo pathPfx
    let shown := match pinfo with
      | some (names, _) =>
        entriesS.filter (fun (e : String × PTree) => names.contains e.1)
      | none => entriesS
    let hiddenCount := match pinfo with
      | some (_, remaining) => remaining
      | none => 0
    (shown.enum.map (fun (ie : ℕ × (String × PTree)) =>
      let i := ie.1
      let e := ie.2
      let isLast := decide (i = shown.length - 1) && decide (hiddenCount = 0)
      let connector := if isLast then "└─ " else "├─ "
      let nodePath := if pathPfx = "" then e.1 else pathPfx ++ "/" ++ e.1
      if isDirB e.2.children nodePath dirs then
        if expanded.contains nodePath then
          (pfx ++ connector ++ e.1 ++ "/") ::
            renderLines dirs stats partInfo expanded lineCounts hasChurn
              fuel e.2.children (pfx ++ (if isLast then "   " else "│  "))
              nodePath
        else
          [pfx ++ connector ++ e.1 ++ "/  " ++
            collapsedDirNote nodePath stats hasChurn]
      else
        match lineCounts with
        | some lc =>
          match lc nodePath with
          | some n => [pfx ++ connector ++ e.1 ++ " (" ++ toString n ++ ")"]
          | none => [pfx ++ connector ++ e.1]
        | none => [pfx ++ connector ++ e.1])).join ++
      (if 0 < hiddenCount then
        [pfx ++ "└─ ... and " ++ toString hiddenCount ++ " more"]
       else [])

/-- Initial loop state: root children visible, top-level directories
with stats seeded into the heap. -/
def initLoopState (tree : List (String × PTree)) (dirs : List String)
    (stats : String → Option DirStats) : LoopState :=
  { pq := tree.filterMap (fun e =>
      if isDirB e.2.children e.1 dirs then
        match stats e.1 with
        | some st => some (-st.importance, e.1)
        | none => none
      else none)
    expanded := []
    partInfo := fun _ => none
    cost := tree.length }

/-- Loop + render pass at a given fuel bound. -/
def budgetRender (tree : List (String × PTree)) (dirs : List String)
    (stats : String → Option DirStats) (budget : ℕ)
    (lineCounts : Option (String → Option ℕ)) (hasChurn : Bool)
    (fuel : ℕ) : List String :=
  let final := budgetLoop tree dirs stats lineCounts budget fuel
    (initLoopState tree dirs stats)
  renderLines dirs stats final.partInfo final.expanded lineCounts hasChurn
    fuel tree "" ""

/-- render_budgeted_tree_lines: run the greedy expansion loop, then the
pure render pass.  The fuel bound dominates both the loop iteration
count (each path enters the heap at most once) and the tree depth, so
the embedding computes exactly what the Python while-loop does. -/
def renderBudgetedTreeLines (tree : List (String × PTree))
    (dirs : List String) (stats : String → Option DirStats) (budget : ℕ)
    (lineCounts : Option (String → Option ℕ)) (hasChurn : Bool) :
    List String :=
  budgetRender tree dirs stats budget lineCounts hasChurn
    (treeListSize tree + tree.length + 1)

/- ── Theorems ─────────────────────────────────────────────────────── -/

theorem autoChurnBucketSize_pos (n : ℕ) : 1 ≤ autoChurnBucketSize n := by
  simp only [autoChurnBucketSize]
  split_ifs <;> omega

/-- C8: every history of at most 60 commits gets bucket size 1, and for
more than 60 commits the resulting bucket count ceil(n / size) lies in
[30, 60]. -/
theorem auto_bucket_size_in_range (n : ℕ) :
    (n ≤ 60 → autoChurnBucketSize n = 1) ∧
      (60 < n → 30 ≤ ceilNat n (autoChurnBucketSize n) ∧
        ceilNat n (autoChurnBucketSize n) ≤ 60) := by
  constructor
  · intro h
    unfold autoChurnBucketSize
    by_cases h0 : n = 0
    · simp [h0]
    · simp [h0, h]
  · intro h
    have h0 : ¬ n = 0 := by omega
    have h60 : ¬ n ≤ 60 := by omega
    rw [autoChurnBucketSize, if_neg h0, if_neg h60]
    set b0 := max 1 (pyRound ((n : ℚ) / 50)).toNat with hb0def
    have hb0 : 1 ≤ b0 := Nat.le_max_left 1 _
    by_cases h1 : 60 < ceilNat n b0
    · rw [if_pos h1]
      have hm : ceilNat n 60 = (n + 59) / 60 := rfl
      have hm2 : 2 ≤ (n + 59) / 60 := by omega
      rw [hm, Nat.max_eq_right (by omega)]
      set m := (n + 59) / 60 with hmdef
      have hmpos : 0 < m := by omega
      constructor
      · refine (Nat.le_div_iff_mul_le hmpos).mpr ?_
        omega
      · have hlt : (n + m - 1) / m < 61 :=
          (Nat.div_lt_iff_lt_mul hmpos).mpr (by omega)
        have : ceilNat n m = (n + m - 1) / m := rfl
        omega
    · rw [if_neg h1]
      by_cases h2 : ceilNat n b0 < 30
      · rw [if_pos h2]
        have hm2 : 2 ≤ n / 30 := by omega
        rw [Nat.max_eq_right (by omega)]
        set m := n / 30 with hmdef
        have hmpos : 0 < m := by omega
        constructor
        · refine (Nat.le_div_iff_mul_le hmpos).mpr ?_
          omega
        · have hlt : (n + m - 1) / m < 61 :=
            (Nat.div_lt_iff_lt_mul hmpos).mpr (by omega)
          have : ceilNat n m = (n + m - 1) / m := rfl
          omega
      · rw [if_neg h2]
        omega

/-- Witness for C8 at histories of 50 and 100 commits. -/
theorem auto_bucket_size_in_range_witness :
    (50 ≤ 60 ∧ autoChurnBucketSize 50 = 1) ∧
      (60 < 100 ∧ 30 ≤ ceilNat 100 (autoChurnBucketSize 100) ∧
        ceilNat 100 (autoChurnBucketSize 100) ≤ 60) :=
  ⟨⟨by decide, (auto_bucket_size_in_range 50).1 (by decide)⟩,
    ⟨by decide, (auto_bucket_size_in_range 100).2 (by decide)⟩⟩

/-- C9: zero commits make the churn renderer report "no commit history
found" and return before any bucket computation; when it does proceed,
the bucket count is at least 1 (so `num_buckets` is never a zero
divisor). -/
theorem renderChurn_empty_history :
    (∀ params : ChurnParams,
      renderChurn params [] = Sum.inl ["*(no commit history found)*"]) ∧
      ∀ (params : ChurnParams) (commits : List GitCommit),
        commits ≠ [] → (∀ b, params.bucket = some b → 0 < b) →
        1 ≤ ceilNat commits.length (churnBucketSize params commits) := by
  constructor
  · intro params
    rfl
  · intro params commits hne hb
    have hbs : 1 ≤ churnBucketSize params commits := by
      unfold churnBucketSize
      match hcase : params.bucket with
      | none => exact autoChurnBucketSize_pos _
      | some b => exact hb b hcase
    have hlen : 1 ≤ commits.length := by
      cases commits with
      | nil => exact absurd rfl hne
      | cons c cs => simp
    unfold ceilNat
    refine (Nat.le_div_iff_mul_le (by omega)).mpr ?_
    omega

/-- Default parameter record used by the concrete churn scenarios
(top 20, auto buckets, lines sort, min continuity 0.25, min coupling
0.30, no filters). -/
def defaultChurnParams : ChurnParams :=
  { topN := 20
    bucket := none
    sortMode := SortMode.lines
    minLines := 0
    minContinuity := 1/4
    minCoupling := 3/10
    keep := fun _ => true
    authorFilters := [] }

/-- Witness for C9's second conjunct at a one-commit history. -/
theorem renderChurn_empty_history_witness :
    ([⟨"alice", [("a.py", 1)]⟩] : List GitCommit) ≠ [] ∧
      1 ≤ ceilNat ([⟨"alice", [("a.py", 1)]⟩] : List GitCommit).length
        (churnBucketSize defaultChurnParams [⟨"alice", [("a.py", 1)]⟩]) :=
  ⟨by decide,
    renderChurn_empty_history.2 defaultChurnParams
      [⟨"alice", [("a.py", 1)]⟩] (by decide)
      (fun b hball => by simp [defaultChurnParams] at hball)⟩

/- Helper lemmas for C10. -/

theorem coCount_cons (s : List String) (sets : List (List String))
    (a b : String) :
    coCount (s :: sets) a b =
      (if commitSizeOK s && s.contains a && s.contains b then 1 else 0) +
        coCount sets a b := by
  unfold coCount
  rw [List.filter_cons]
  split_ifs with h
  · simp [Nat.add_comm]
  · simp

theorem fileCommits_cons (keep : String → Bool) (cm : GitCommit)
    (cms : List GitCommit) (a : String) :
    fileCommits keep (cm :: cms) a =
      (cm.files.filter (fun fc => keep fc.1 && fc.1 == a)).length +
        fileCommits keep cms a := by
  unfold fileCommits
  simp

theorem coCount_le_left (keep : String → Bool) (commits : List GitCommit)
    (a b : String) :
    coCount (commitFileSets keep commits) a b ≤ fileCommits keep commits a := by
  induction commits with
  | nil => exact Nat.le_refl 0
  | cons cm cms ih =>
    have hsets : commitFileSets keep (cm :: cms) =
        commitFileSet keep cm :: commitFileSets keep cms := rfl
    rw [hsets, coCount_cons, fileCommits_cons]
    have hhead : (if (commitSizeOK (commitFileSet keep cm) &&
        (commitFileSet keep cm).contains a &&
        (commitFileSet keep cm).contains b) then 1 else 0) ≤
          (cm.files.filter (fun fc => keep fc.1 && fc.1 == a)).length := by
      split_ifs with hcond
      · simp only [Bool.and_eq_true] at hcond
        have hmem : a ∈ commitFileSet keep cm := by
          simpa using hcond.1.2
        unfold commitFileSet at hmem
        rw [mem_firstDedup] at hmem
        obtain ⟨fc, hfc1, hfc2⟩ := List.mem_map.mp hmem
        have hfcmem := List.mem_filter.mp hfc1
        have hin : fc ∈ cm.files.filter (fun fc => keep fc.1 && fc.1 == a) := by
          refine List.mem_filter.mpr ⟨hfcmem.1, ?_⟩
          simp only [Bool.and_eq_true]
          refine ⟨hfcmem.2, ?_⟩
          simp [hfc2]
        exact List.length_pos.mpr (List.ne_nil_of_mem hin)
      · exact Nat.zero_le _
    omega

theorem coCount_comm (sets : List (List String)) (a b : String) :
    coCount sets a b = coCount sets b a := by
  unfold coCount
  congr 1
  apply List.filter_congr
  intro s _
  cases commitSizeOK s <;> cases hsa : s.contains a <;>
    cases hsb : s.contains b <;> simp [hsa, hsb]

/-- C10: every retained coupling edge has 0 < jaccard ≤ 1; the
denominator commits(a) + commits(b) − co_commits is positive and at
least co_commits. -/
theorem retainedEdges_jaccard_bounds (keep : String → Bool)
    (commits : List GitCommit) (θ : ℚ) (e : CouplingEdge)
    (hmem : e ∈ retainedEdges (commitFileSets keep commits)
      (fileCommits keep commits) θ) :
    0 < e.jaccard ∧ e.jaccard ≤ 1 ∧
      (e.co : ℚ) ≤ (fileCommits keep commits e.a : ℚ) +
        (fileCommits keep commits e.b : ℚ) - (e.co : ℚ) ∧
      0 < (fileCommits keep commits e.a : ℚ) +
        (fileCommits keep commits e.b : ℚ) - (e.co : ℚ) := by
  obtain ⟨pr, _, hpr⟩ := List.mem_filterMap.mp hmem
  by_cases h2 : 2 ≤ coCount (commitFileSets keep commits) pr.1 pr.2
  · rw [if_pos h2] at hpr
    by_cases hθ : θ ≤ jaccardOf (commitFileSets keep commits)
        (fileCommits keep commits) pr.1 pr.2
    · rw [if_pos hθ] at hpr
      obtain rfl := Option.some_injective _ hpr
      set c := coCount (commitFileSets keep commits) pr.1 pr.2 with hc
      have hca : c ≤ fileCommits keep commits pr.1 :=
        coCount_le_left keep commits pr.1 pr.2
      have hcb : c ≤ fileCommits keep commits pr.2 := by
        rw [hc, coCount_comm]
        exact coCount_le_left keep commits pr.2 pr.1
      have hcaQ : (c : ℚ) ≤ (fileCommits keep commits pr.1 : ℚ) := by
        exact_mod_cast hca
      have hcbQ : (c : ℚ) ≤ (fileCommits keep commits pr.2 : ℚ) := by
        exact_mod_cast hcb
      have hcQ : (2 : ℚ) ≤ (c : ℚ) := by exact_mod_cast h2
      have hD : (c : ℚ) ≤ (fileCommits keep commits pr.1 : ℚ) +
          (fileCommits keep commits pr.2 : ℚ) - (c : ℚ) := by
        linarith
      have hDpos : 0 < (fileCommits keep commits pr.1 : ℚ) +
          (fileCommits keep commits pr.2 : ℚ) - (c : ℚ) := by
        linarith
      refine ⟨?_, ?_, hD, hDpos⟩
      · exact div_pos (by linarith) hDpos
      · exact (div_le_one hDpos).mpr hD
    · rw [if_neg hθ] at hpr
      exact absurd hpr (by simp)
  · rw [if_neg h2] at hpr
    exact absurd hpr (by simp)

/-- Witness data for C10: two commits that each touch both a.py and
b.py. -/
def c10Commits : List GitCommit :=
  [⟨"u", [("a.py", 1), ("b.py", 1)]⟩, ⟨"u", [("a.py", 2), ("b.py", 3)]⟩]

/-- Witness for C10 at a concrete retained edge with jaccard 1. -/
theorem retainedEdges_jaccard_bounds_witness :
    (⟨"a.py", "b.py", 1, 2⟩ : CouplingEdge) ∈
        retainedEdges (commitFileSets (fun _ => true) c10Commits)
          (fileCommits (fun _ => true) c10Commits) (3/10) ∧
      0 < (1 : ℚ) ∧ (1 : ℚ) ≤ 1 := by
  have hco : coCount (commitFileSets (fun _ => true) c10Commits)
      "a.py" "b.py" = 2 := by decide
  have hpairs : coPairs (commitFileSets (fun _ => true) c10Commits) =
      [("a.py", "b.py")] := by decide
  have hfa : fileCommits (fun _ => true) c10Commits "a.py" = 2 := by decide
  have hfb : fileCommits (fun _ => true) c10Commits "b.py" = 2 := by decide
  have hj : jaccardOf (commitFileSets (fun _ => true) c10Commits)
      (fileCommits (fun _ => true) c10Commits) "a.py" "b.py" = 1 := by
    rw [jaccardOf, hco, hfa, hfb]
    norm_num
  have hmem : (⟨"a.py", "b.py", 1, 2⟩ : CouplingEdge) ∈
      retainedEdges (commitFileSets (fun _ => true) c10Commits)
        (fileCommits (fun _ => true) c10Commits) (3/10) := by
    rw [retainedEdges, hpairs]
    refine List.mem_filterMap.mpr ⟨("a.py", "b.py"), List.mem_cons_self _ _, ?_⟩
    simp only [hco, hj]
    norm_num
  have := retainedEdges_jaccard_bounds (fun _ => true) c10Commits (3/10)
    ⟨"a.py", "b.py", 1, 2⟩ hmem
  exact ⟨hmem, this.1, this.2.1⟩

/- Helper lemmas for C3. -/

theorem mem_drop_range {n k x : ℕ} (hx : x ∈ (List.range n).drop k) :
    k ≤ x ∧ x < n := by
  obtain ⟨j, hj, hjx⟩ := List.mem_iff_getElem.mp hx
  rw [List.getElem_drop] at hjx
  have hlen : j < ((List.range n).drop k).length := hj
  rw [List.length_drop, List.length_range] at hlen
  rw [List.getElem_range] at hjx
  omega

theorem length_le_card_Ico {lo hi : ℕ} {l : List ℕ} (h : l.Nodup)
    (hmem : ∀ x ∈ l, lo ≤ x ∧ x < hi) : l.length ≤ hi - lo := by
  have h1 : l.toFinset ⊆ Finset.Ico lo hi := by
    intro x hx
    rw [List.mem_toFinset] at hx
    exact Finset.mem_Ico.mpr (hmem x hx)
  calc l.length = l.toFinset.card := (List.toFinset_card_of_nodup h).symm
    _ ≤ (Finset.Ico lo hi).card := Finset.card_le_card h1
    _ = hi - lo := Nat.card_Ico lo hi

theorem card_Ico_le_length {lo hi : ℕ} {l : List ℕ}
    (hsub : ∀ b, lo ≤ b → b < hi → b ∈ l) : hi - lo ≤ l.length := by
  have h1 : Finset.Ico lo hi ⊆ l.toFinset := by
    intro x hx
    exact List.mem_toFinset.mpr
      (hsub x (Finset.mem_Ico.mp hx).1 (Finset.mem_Ico.mp hx).2)
  calc hi - lo = (Finset.Ico lo hi).card := (Nat.card_Ico lo hi).symm
    _ ≤ l.toFinset.card := Finset.card_le_card h1
    _ ≤ l.length := List.toFinset_card_le l

theorem fileBucketsVec_length (keep : String → Bool) (bs numB : ℕ)
    (commits : List GitCommit) (f : String) :
    (fileBucketsVec keep bs numB commits f).length = numB := by
  unfold fileBucketsVec
  simp

theorem primerBucketSize_pos (commits : List (List String)) (tb : ℕ) :
    1 ≤ primerBucketSize commits tb := Nat.le_max_left 1 _

theorem primerActiveBuckets_lt (commits : List (List String)) (tb : ℕ)
    (rel : String) :
    ∀ x ∈ primerActiveBuckets commits (primerBucketSize commits tb) rel,
      x < primerNumBuckets commits tb := by
  intro x hx
  rw [primerActiveBuckets, mem_firstDedup] at hx
  obtain ⟨ic, hic, hopt⟩ := List.mem_filterMap.mp hx
  obtain ⟨i, s⟩ := ic
  by_cases hcond : s.contains rel = true
  · simp only [hcond, if_pos] at hopt
    obtain rfl := Option.some_injective _ hopt
    have hi : i < commits.length := (List.mem_enum hic).1
    have hbs : 1 ≤ primerBucketSize commits tb := primerBucketSize_pos _ _
    set bs := primerBucketSize commits tb with hbsdef
    have hlen1 : 1 ≤ commits.length := by omega
    have hceil : ceilNat commits.length bs =
        (commits.length - 1) / bs + 1 := by
      unfold ceilNat
      have he : commits.length + bs - 1 = (commits.length - 1) + bs := by
        omega
      rw [he, Nat.add_div_right _ (by omega)]
    have hle : i / bs ≤ (commits.length - 1) / bs :=
      Nat.div_le_div_right (by omega)
    have : i / bs < ceilNat commits.length bs := by omega
    calc i / bs < ceilNat commits.length bs := this
      _ ≤ primerNumBuckets commits tb := Nat.le_max_right 1 _
  · simp only [hcond] at hopt
    simp at hopt

/-- C3: wherever continuity is defined it lies in [0, 1], and a file
with activity in every bucket from its first appearance through the
last bucket has continuity exactly 1 — for both the churn renderer's
continuity and primer_insights' compute_file_continuity. -/
theorem continuity_bounds (keep : String → Bool) (bs numB : ℕ)
    (commits : List GitCommit) (f : String) :
    (∀ q, fileContinuity keep bs numB commits f = some q →
        0 ≤ q ∧ q ≤ 1) ∧
      (∀ ci0, 3 ≤ numB → fileFirstSeen keep commits f = some ci0 →
        2 ≤ numB - ci0 / bs →
        (∀ b, ci0 / bs ≤ b → b < numB →
          0 < fileBucketVal keep bs commits f b) →
        fileContinuity keep bs numB commits f = some 1) ∧
      (∀ (pcommits : List (List String)) (tb : ℕ) (rel : String) (q : ℚ),
        computeFileContinuity pcommits tb rel = some q → 0 ≤ q ∧ q ≤ 1) ∧
      ∀ (pcommits : List (List String)) (tb : ℕ) (rel : String)
        (firstB : ℕ),
        pcommits.isEmpty = false →
        primerFirstBucket pcommits (primerBucketSize pcommits tb) rel =
          some firstB →
        0 < primerNumBuckets pcommits tb - firstB →
        (∀ b, firstB ≤ b → b < primerNumBuckets pcommits tb →
          ∃ ic ∈ pcommits.enum, ic.1 / primerBucketSize pcommits tb = b ∧
            ic.2.contains rel = true) →
        computeFileContinuity pcommits tb rel = some 1 := by
  refine ⟨?_, ?_, ?_, ?_⟩
  · intro q hq
    rw [fileContinuity] at hq
    split_ifs at hq with h3
    cases hfs : fileFirstSeen keep commits f with
    | none => rw [hfs] at hq; simp at hq
    | some ci0 =>
      rw [hfs] at hq
      dsimp only at hq
      by_cases h2 : numB - ci0 / bs < 2
      · rw [if_pos h2] at hq
        simp at hq
      · rw [if_neg h2] at hq
        obtain rfl := Option.some_injective _ hq
        have hdlen : ((fileBucketsVec keep bs numB commits f).drop
            (ci0 / bs)).length = numB - ci0 / bs := by
          rw [List.length_drop, fileBucketsVec_length]
        have hact : ((fileBucketsVec keep bs numB commits f).drop
            (ci0 / bs)).countP (fun v => decide (0 < v)) ≤
              numB - ci0 / bs := by
          rw [← hdlen]
          exact List.countP_le_length _
        constructor
        · positivity
        · rw [div_le_one (by exact_mod_cast (by omega :
            0 < numB - ci0 / bs))]
          exact_mod_cast hact
  · intro ci0 h3 hfs h2 hall
    rw [fileContinuity, if_pos h3, hfs]
    dsimp only
    rw [if_neg (show ¬ numB - ci0 / bs < 2 by omega)]
    have hdlen : ((fileBucketsVec keep bs numB commits f).drop
        (ci0 / bs)).length = numB - ci0 / bs := by
      rw [List.length_drop, fileBucketsVec_length]
    have hfull : ((fileBucketsVec keep bs numB commits f).drop
        (ci0 / bs)).countP (fun v => decide (0 < v)) = numB - ci0 / bs := by
      rw [← hdlen]
      rw [List.countP_eq_length]
      intro v hv
      rw [fileBucketsVec, ← List.map_drop] at hv
      obtain ⟨b, hb, rfl⟩ := List.mem_map.mp hv
      obtain ⟨hb1, hb2⟩ := mem_drop_range hb
      simpa using hall b hb1 hb2
    rw [hfull]
    congr 1
    rw [div_self]
    exact_mod_cast (by omega : numB - ci0 / bs ≠ 0)
  · intro pcommits tb rel q hq
    by_cases hne : pcommits.isEmpty = true
    · rw [computeFileContinuity, if_pos hne] at hq
      simp at hq
    · rw [computeFileContinuity, if_neg hne] at hq
      dsimp only at hq
      cases hfb : primerFirstBucket pcommits (primerBucketSize pcommits tb)
          rel with
      | none => rw [hfb] at hq; simp at hq
      | some firstB =>
        rw [hfb] at hq
        dsimp only at hq
        by_cases h0 : primerNumBuckets pcommits tb - firstB = 0
        · rw [if_pos h0] at hq
          simp at hq
        · rw [if_neg h0] at hq
          obtain rfl := Option.some_injective _ hq
          have hcount : (primerActiveBuckets pcommits
              (primerBucketSize pcommits tb) rel).countP
                (fun b => decide (firstB ≤ b)) ≤
              primerNumBuckets pcommits tb - firstB := by
            rw [List.countP_eq_length_filter]
            apply length_le_card_Ico
            · exact (nodup_firstDedup _).filter _
            · intro x hx
              have hx' := List.mem_filter.mp hx
              refine ⟨by simpa using hx'.2, ?_⟩
              exact primerActiveBuckets_lt pcommits tb rel x hx'.1
          constructor
          · positivity
          · rw [div_le_one (by exact_mod_cast (by omega :
              0 < primerNumBuckets pcommits tb - firstB))]
            exact_mod_cast hcount
  · intro pcommits tb rel firstB hne hfb h0 hall
    rw [computeFileContinuity,
      if_neg (show ¬ pcommits.isEmpty = true by simp [hne])]
    dsimp only
    rw [hfb]
    dsimp only
    rw [if_neg (show ¬ primerNumBuckets pcommits tb - firstB = 0 by omega)]
    have hle : (primerActiveBuckets pcommits
        (primerBucketSize pcommits tb) rel).countP
          (fun b => decide (firstB ≤ b)) ≤
        primerNumBuckets pcommits tb - firstB := by
      rw [List.countP_eq_length_filter]
      apply length_le_card_Ico
      · exact (nodup_firstDedup _).filter _
      · intro x hx
        have hx' := List.mem_filter.mp hx
        refine ⟨by simpa using hx'.2, ?_⟩
        exact primerActiveBuckets_lt pcommits tb rel x hx'.1
    have hge : primerNumBuckets pcommits tb - firstB ≤
        (primerActiveBuckets pcommits
          (primerBucketSize pcommits tb) rel).countP
            (fun b => decide (firstB ≤ b)) := by
      rw [List.countP_eq_length_filter]
      apply card_Ico_le_length
      intro b hb1 hb2
      obtain ⟨ic, hic, hic2, hic3⟩ := hall b hb1 hb2
      refine List.mem_filter.mpr ⟨?_, by simpa using hb1⟩
      rw [primerActiveBuckets, mem_firstDedup]
      refine List.mem_filterMap.mpr ⟨ic, hic, ?_⟩
      rw [if_pos hic3, hic2]
    have heq : (primerActiveBuckets pcommits
        (primerBucketSize pcommits tb) rel).countP
          (fun b => decide (firstB ≤ b)) =
        primerNumBuckets pcommits tb - firstB := by omega
    rw [heq]
    congr 1
    rw [div_self]
    exact_mod_cast (by omega : primerNumBuckets pcommits tb - firstB ≠ 0)

/-- Witness data for C3: three single-commit buckets all touching
a.py. -/
def c3Commits : List GitCommit :=
  [⟨"u", [("a.py", 1)]⟩, ⟨"u", [("a.py", 2)]⟩, ⟨"u", [("a.py", 1)]⟩]

/-- Witness for C3: the 3-commit scenario has continuity exactly 1, and
that value is within [0, 1]; same for the primer variant. -/
theorem continuity_bounds_witness :
    fileContinuity (fun _ => true) 1 3 c3Commits "a.py" = some 1 ∧
      (0 ≤ (1 : ℚ) ∧ (1 : ℚ) ≤ 1) ∧
      computeFileContinuity [["a.py"], ["a.py"], ["a.py"]] 50 "a.py" =
        some 1 := by
  have hfs : fileFirstSeen (fun _ => true) c3Commits "a.py" = some 0 := by
    decide
  have hall : ∀ b, 0 / 1 ≤ b → b < 3 →
      0 < fileBucketVal (fun _ => true) 1 c3Commits "a.py" b := by
    intro b h1 h2
    interval_cases b <;> decide
  have hmain := (continuity_bounds (fun _ => true) 1 3 c3Commits
    "a.py").2.1 0 (by decide) hfs (by decide) hall
  have hbsP : primerBucketSize [["a.py"], ["a.py"], ["a.py"]] 50 = 1 := by
    rw [primerBucketSize]
    norm_num [pyRound]
  have hnumP : primerNumBuckets [["a.py"], ["a.py"], ["a.py"]] 50 = 3 := by
    rw [primerNumBuckets, hbsP]
    decide
  have hfbP : primerFirstBucket [["a.py"], ["a.py"], ["a.py"]]
      (primerBucketSize [["a.py"], ["a.py"], ["a.py"]] 50) "a.py" =
        some 0 := by
    rw [hbsP]
    decide
  have hallP : ∀ b, 0 ≤ b →
      b < primerNumBuckets [["a.py"], ["a.py"], ["a.py"]] 50 →
      ∃ ic ∈ ([["a.py"], ["a.py"], ["a.py"]] :
          List (List String)).enum,
        ic.1 / primerBucketSize [["a.py"], ["a.py"], ["a.py"]] 50 = b ∧
          ic.2.contains "a.py" = true := by
    rw [hnumP, hbsP]
    intro b h1 h2
    interval_cases b
    · exact ⟨(0, ["a.py"]), by decide, by decide, by decide⟩
    · exact ⟨(1, ["a.py"]), by decide, by decide, by decide⟩
    · exact ⟨(2, ["a.py"]), by decide, by decide, by decide⟩
  have hprimer := (continuity_bounds (fun _ => true) 1 3 c3Commits
    "a.py").2.2.2 [["a.py"], ["a.py"], ["a.py"]] 50 "a.py" 0 (by decide)
    hfbP (by rw [hnumP]; omega) hallP
  exact ⟨hmain,
    (continuity_bounds (fun _ => true) 1 3 c3Commits "a.py").1 1 hmain,
    hprimer⟩

/- Helper for C7: monotonicity of one log term. -/

theorem logb_term_mono {x x' : ℝ} (h0 : 0 ≤ x) (hx : x ≤ x') (d : ℝ)
    (hd : 0 < d) :
    Real.logb 2 (1 + x / d) ≤ Real.logb 2 (1 + x' / d) := by
  apply Real.logb_le_logb_of_le (by norm_num)
  · have : 0 ≤ x / d := div_nonneg h0 (le_of_lt hd)
    linarith
  · have hdiv : x / d ≤ x' / d := (div_le_div_right hd).mpr hx
    linarith [hdiv]

theorem logb_term_mono1 {x x' : ℝ} (h0 : 0 ≤ x) (hx : x ≤ x') :
    Real.logb 2 (1 + x) ≤ Real.logb 2 (1 + x') := by
  apply Real.logb_le_logb_of_le (by norm_num) (by linarith) (by linarith)

/-- C7: increasing total_loc (resp. loc) or churn_lines while holding
all other signals fixed never decreases the computed importance, for
the directory formulas and the file symbol-map formulas, with and
without churn data. -/
theorem importance_monotone (fc tl ch hc cc loc x x' : ℝ) (h0 : 0 ≤ x)
    (hx : x ≤ x') :
    computeImportance fc x ch hc true ≤ computeImportance fc x' ch hc true ∧
      computeImportance fc x ch hc false ≤
        computeImportance fc x' ch hc false ∧
      computeImportance fc tl x hc true ≤
        computeImportance fc tl x' hc true ∧
      computeImportance fc tl x hc false ≤
        computeImportance fc tl x' hc false ∧
      fileSymbolImportance x cc ch true ≤
        fileSymbolImportance x' cc ch true ∧
      fileSymbolImportance x cc ch false ≤
        fileSymbolImportance x' cc ch false ∧
      fileSymbolImportance loc cc x true ≤
        fileSymbolImportance loc cc x' true ∧
      fileSymbolImportance loc cc x false ≤
        fileSymbolImportance loc cc x' false := by
  have h100 : (0 : ℝ) < 100 := by norm_num
  have hmono := logb_term_mono h0 hx 100 h100
  refine ⟨?_, ?_, ?_, ?_, ?_, ?_, ?_, ?_⟩
  · simp only [computeImportance, if_pos]
    nlinarith [hmono]
  · simp only [computeImportance, if_neg Bool.false_ne_true]
    nlinarith [hmono]
  · simp only [computeImportance, if_pos]
    nlinarith [hmono]
  · simp only [computeImportance, if_neg Bool.false_ne_true]
    exact le_rfl
  · simp only [fileSymbolImportance, if_pos]
    nlinarith [hmono]
  · simp only [fileSymbolImportance, if_neg Bool.false_ne_true]
    exact hmono
  · simp only [fileSymbolImportance, if_pos]
    nlinarith [hmono]
  · simp only [fileSymbolImportance, if_neg Bool.false_ne_true]
    exact le_rfl

/-- Witness for C7 at loc 100 ≤ 200 with the remaining signals fixed
at 7. -/
theorem importance_monotone_witness :
    (0 : ℝ) ≤ 100 ∧ (100 : ℝ) ≤ 200 ∧
      computeImportance 7 100 7 7 true ≤ computeImportance 7 200 7 7 true :=
  ⟨by norm_num, by norm_num,
    (importance_monotone 7 7 7 7 7 7 100 200 (by norm_num)
      (by norm_num)).1⟩

/- Helper for C2: the selection loop equals filter-then-map. -/

theorem critRaw_eq_filter_map (inp : CritInputs) (files : List String) :
    files.foldr (fun rel acc =>
      if isFixture rel then acc
      else if critAllZero inp rel then acc
      else if (critSignals inp rel).score > 0.2 then
        critSignals inp rel :: acc
      else acc) [] =
    (files.filter (fun rel =>
      !(decide (isFixture rel)) && !(decide (critAllZero inp rel)) &&
        decide ((critSignals inp rel).score > 0.2))).map (critSignals inp) := by
  induction files with
  | nil => rfl
  | cons r rs ih =>
    rw [List.foldr_cons, List.filter_cons, ih]
    by_cases h1 : isFixture r
    · simp [h1]
    · by_cases h2 : critAllZero inp r
      · simp [h1, h2]
      · by_cases h3 : (critSignals inp r).score > 0.2
        · simp [h1, h2, h3]
        · simp [h1, h2, h3]

/-- C2 (amended): the critical ranker keeps exactly the non-fixture
files that are not all-zero-signal with zero loc (symbol count plays
no part in that drop rule) and whose blended score exceeds 0.2; they
are sorted by descending score with path tie-break and truncated to
the top 12. -/
theorem buildCriticalScores_eq_amended (inp : CritInputs) :
    buildCriticalScores inp = criticalScoresAmended inp := by
  rw [buildCriticalScores, criticalScoresAmended, critRaw_eq_filter_map]

/-- Counterexample input for C2: a single 300-line documentation file
with no structural signals. -/
def c2Inputs : CritInputs :=
  { files := ["doc.md"]
    lineCounts := fun r => if r = "doc.md" then 300 else 0
    entrypoints := []
    dispatchEntries := []
    commandHits := []
    edges := []
    testPathHits := fun _ => 0
    symbolCounts := fun _ => 0 }

theorem c2_score_eq : (critSignals c2Inputs "doc.md").score = 1/5 := by
  have hext : extOf "doc.md" = ".md" := by decide
  have hbonus : codeTypeBonus "doc.md" = -0.8 := by
    rw [codeTypeBonus, hext, if_neg (by decide), if_pos (by decide)]
  have hlc : (c2Inputs.lineCounts "doc.md" : ℚ) = 300 := by
    norm_num [c2Inputs]
  simp only [critSignals, hbonus, hlc]
  norm_num [dispatchTargets, inboundCount, commandTouch, c2Inputs]

/-- Counterexample for C2: the code drops doc.md (score exactly 0.2,
not above the 0.2 floor) although it has non-zero size and the claim
says only all-zero-signals-and-zero-size files are dropped. -/
theorem criticalScores_claim_counterexample :
    buildCriticalScores c2Inputs = [] ∧ criticalScoresClaim c2Inputs ≠ [] := by
  have hfiles : c2Inputs.files = ["doc.md"] := rfl
  constructor
  · rw [buildCriticalScores, critRaw_eq_filter_map, hfiles]
    have hsc : decide ((critSignals c2Inputs "doc.md").score > 0.2) = false := by
      apply decide_eq_false
      rw [c2_score_eq]
      norm_num
    rw [List.filter_cons, if_neg (by simp [hsc])]
    rfl
  · rw [criticalScoresClaim, hfiles]
    have hnz : decide (critAllZero c2Inputs "doc.md") = false := by
      apply decide_eq_false
      intro hcon
      have h1 := hcon.1
      rw [show c2Inputs.lineCounts "doc.md" = 300 from rfl] at h1
      norm_num at h1
    rw [List.filter_cons, if_pos (by simp [hnz])]
    simp [List.insertionSort, List.orderedInsert]

/- ── C5: determinism / tie-break keys ─────────────────────────────── -/

/-- Spec-side rendering of claim C5's words for the churn lines
ranking: stable sort by (total lines desc, path asc), i.e. with the
path as a final tie-break key. -/
def churnLinesSortedPathTie (keep : String → Bool)
    (commits : List GitCommit) (topN minLines : ℕ) : List String :=
  let eligible0 := touchedFiles keep commits
  let eligible := if 0 < minLines then
      eligible0.filter (fun f => decide (minLines ≤ fileTotal keep commits f))
    else eligible0
  (eligible.insertionSort
    (fun a b => fileTotal keep commits b < fileTotal keep commits a ∨
      (fileTotal keep commits a = fileTotal keep commits b ∧
        strLe a b = true))).take topN

/-- Counterexample commits for C5: two files with equal totals, the
path-later file touched first. -/
def c5Commits : List GitCommit :=
  [⟨"u", [("z.py", 5)]⟩, ⟨"u", [("a.py", 5)]⟩]

/-- Counterexample for C5: the churn lines ranking keeps first-touch
order on ties (z.py before a.py) instead of breaking the tie by path,
so not every ranking sort includes the path as a final tie-break key. -/
theorem churn_sort_no_path_tiebreak :
    churnSortedFiles defaultChurnParams c5Commits = ["z.py", "a.py"] ∧
      churnLinesSortedPathTie (fun _ => true) c5Commits 20 0 =
        ["a.py", "z.py"] ∧
      churnSortedFiles defaultChurnParams c5Commits ≠
        churnLinesSortedPathTie (fun _ => true) c5Commits 20 0 := by
  refine ⟨by decide, by decide, by decide⟩

instance : IsTotal CritEntry critLe :=
  ⟨by
    intro x y
    rcases lt_trichotomy x.score y.score with h | h | h
    · right
      exact Or.inl h
    · rcases strLe_total x.rel y.rel with hs | hs
      · left
        exact Or.inr ⟨h, hs⟩
      · right
        exact Or.inr ⟨h.symm, hs⟩
    · left
      exact Or.inl h⟩

instance : IsTrans CritEntry critLe :=
  ⟨by
    intro x y z hxy hyz
    rcases hxy with h1 | ⟨h1e, h1s⟩
    · rcases hyz with h2 | ⟨h2e, h2s⟩
      · exact Or.inl (lt_trans h2 h1)
      · exact Or.inl (by rw [← h2e]; exact h1)
    · rcases hyz with h2 | ⟨h2e, h2s⟩
      · exact Or.inl (by rw [h1e]; exact h2)
      · exact Or.inr ⟨h1e.trans h2e, strLe_trans h1s h2s⟩⟩

/-- C5 (amended): rankings are pure functions of their inputs; the
critical-path ranking is sorted under its (−score, path) key — so ties
ARE broken by path there — while the churn lines ranking is sorted by
total lines only, ties resolved by first-touch order rather than
path. -/
theorem ranking_sort_orders :
    (∀ inp : CritInputs, List.Sorted critLe (buildCriticalScores inp)) ∧
      ∀ (params : ChurnParams) (commits : List GitCommit),
        params.sortMode = SortMode.lines →
        List.Sorted (fun a b => fileTotal params.keep commits b ≤
          fileTotal params.keep commits a) (churnSortedFiles params commits) := by
  constructor
  · intro inp
    rw [buildCriticalScores]
    exact List.Pairwise.sublist (List.take_sublist _ _)
      (List.sorted_insertionSort critLe _)
  · intro params commits hmode
    haveI : IsTotal String (fun a b => fileTotal params.keep commits b ≤
        fileTotal params.keep commits a) :=
      ⟨fun a b => Or.symm (Nat.le_total _ _)⟩
    haveI : IsTrans String (fun a b => fileTotal params.keep commits b ≤
        fileTotal params.keep commits a) :=
      ⟨fun _ _ _ hab hbc => le_trans hbc hab⟩
    rw [churnSortedFiles, hmode]
    exact List.Pairwise.sublist (List.take_sublist _ _)
      (List.sorted_insertionSort _ _)

/-- Witness for C5's amended claim at the lines sort mode. -/
theorem ranking_sort_orders_witness :
    defaultChurnParams.sortMode = SortMode.lines ∧
      List.Sorted (fun a b => fileTotal defaultChurnParams.keep c5Commits b ≤
        fileTotal defaultChurnParams.keep c5Commits a)
        (churnSortedFiles defaultChurnParams c5Commits) :=
  ⟨rfl, ranking_sort_orders.2 defaultChurnParams c5Commits rfl⟩

/-- C4: jaccard coupling is symmetric in its two files, and the
Union-Find clustering is transitive: whenever (a,b) and (b,c) are both
retained edges, a and c land in the same cluster even without a direct
(a,c) edge. -/
theorem coupling_symm_and_cluster_transitive :
    (∀ (sets : List (List String)) (commitsOf : String → ℕ) (a b : String),
      jaccardOf sets commitsOf a b = jaccardOf sets commitsOf b a) ∧
      ∀ (edges : List CouplingEdge) (a b c : String),
        (∃ e ∈ edges, e.a = a ∧ e.b = b) →
        (∃ e ∈ edges, e.a = b ∧ e.b = c) →
        ∃ r, a ∈ couplingClusters edges r ∧ c ∈ couplingClusters edges r := by
  constructor
  · intro sets commitsOf a b
    rw [jaccardOf, jaccardOf, coCount_comm sets a b]
    ring_nf
  · intro edges a b c hab hbc
    obtain ⟨e1, he1, he1a, he1b⟩ := hab
    obtain ⟨e2, he2, he2a, he2b⟩ := hbc
    simp only [couplingClusters]
    set prs := edges.map (fun e => (e.a, e.b)) with hprs
    set F := prs.length + 1 with hF
    have hab' : ((a, b) : String × String) ∈ prs := by
      rw [hprs]
      exact List.mem_map.mpr ⟨e1, he1, by rw [he1a, he1b]⟩
    have hbc' : ((b, c) : String × String) ∈ prs := by
      rw [hprs]
      exact List.mem_map.mpr ⟨e2, he2, by rw [he2a, he2b]⟩
    obtain ⟨hBnd, hconn, _⟩ :=
      ufProcess_spec prs (fun x => x) 0 F bnd_id (by omega)
    have hcls := buildClusters_spec prs (ufProcess prs F (fun x => x))
      (fun _ => []) (0 + prs.length) F hBnd (by omega)
    have hroots := hconn (a, b) hab'
    have ha_mem := (hcls.2 (a, b) hab').1
    have hc_mem := (hcls.2 (b, c) hbc').2
    refine ⟨pIter (ufProcess prs F (fun x => x)) (0 + prs.length) b, ?_, ?_⟩
    · have hroots' : pIter (ufProcess prs F (fun x => x))
          (0 + prs.length) a =
        pIter (ufProcess prs F (fun x => x)) (0 + prs.length) b := hroots
      rw [← hroots']
      exact ha_mem
    · exact hc_mem

/-- Witness for C4 at a concrete chain a—b, b—c with no a—c edge. -/
theorem coupling_cluster_transitive_witness :
    (∃ e ∈ ([⟨"a", "b", 1, 2⟩, ⟨"b", "c", 1, 2⟩] : List CouplingEdge),
        e.a = "a" ∧ e.b = "b") ∧
      (∃ e ∈ ([⟨"a", "b", 1, 2⟩, ⟨"b", "c", 1, 2⟩] : List CouplingEdge),
        e.a = "b" ∧ e.b = "c") ∧
      ∃ r, "a" ∈ couplingClusters [⟨"a", "b", 1, 2⟩, ⟨"b", "c", 1, 2⟩] r ∧
        "c" ∈ couplingClusters [⟨"a", "b", 1, 2⟩, ⟨"b", "c", 1, 2⟩] r :=
  ⟨⟨⟨"a", "b", 1, 2⟩, List.mem_cons_self _ _, rfl, rfl⟩,
    ⟨⟨"b", "c", 1, 2⟩, List.mem_cons_of_mem _ (List.mem_cons_self _ _),
      rfl, rfl⟩,
    coupling_symm_and_cluster_transitive.2
      [⟨"a", "b", 1, 2⟩, ⟨"b", "c", 1, 2⟩] "a" "b" "c"
      ⟨⟨"a", "b", 1, 2⟩, List.mem_cons_self _ _, rfl, rfl⟩
      ⟨⟨"b", "c", 1, 2⟩, List.mem_cons_of_mem _ (List.mem_cons_self _ _),
        rfl, rfl⟩⟩

/- ── C1 / C6: budgeted tree renderer ──────────────────────────────── -/

/-- A root directory d containing two files. -/
def c1Tree : List (String × PTree) :=
  [("d", PTree.node [("a", PTree.node []), ("b", PTree.node [])])]

/-- Stats for c1Tree: d has importance 1 and two files. -/
def c1Stats : String → Option DirStats :=
  fun p => if p = "d" then some ⟨1, 2, 0, []⟩ else none

/-- C1 (code_bug evidence): with budget 2 — at or above the minimum
representable output of 1 all-collapsed line — the renderer emits 3
lines: the expansion accounting charges child_count − 1 per expanded
directory although the render keeps the directory header line in
addition to the children, so emitted lines exceed the budget. -/
theorem tree_budget_exceeded :
    c1Tree.length ≤ 2 ∧
      (renderBudgetedTreeLines c1Tree ["d"] c1Stats 2 none false).length = 3 ∧
      2 < (renderBudgetedTreeLines c1Tree ["d"] c1Stats 2 none false).length := by
  have hfuel : treeListSize c1Tree + c1Tree.length + 1 = 5 := by
    simp [treeListSize, c1Tree]
  have hr : renderBudgetedTreeLines c1Tree ["d"] c1Stats 2 none false =
      budgetRender c1Tree ["d"] c1Stats 2 none false 5 := by
    rw [renderBudgetedTreeLines, hfuel]
  rw [hr]
  refine ⟨by decide, by decide, by decide⟩

/-- Invariant: once a directory is expanded with no partial marker, the
rest of the loop keeps it expanded and unmarked. -/
theorem budgetLoop_preserves (tree : List (String × PTree))
    (dirs : List String) (stats : String → Option DirStats)
    (lineCounts : Option (String → Option ℕ)) (budget : ℕ) :
    ∀ (fuel : ℕ) (s : LoopState) (d : String), d ∈ s.expanded →
      s.partInfo d = none →
      d ∈ (budgetLoop tree dirs stats lineCounts budget fuel s).expanded ∧
        (budgetLoop tree dirs stats lineCounts budget fuel s).partInfo d =
          none := by
  intro fuel
  induction fuel with
  | zero => intro s d h1 h2; exact ⟨h1, h2⟩
  | succ f ih =>
    intro s d h1 h2
    rw [budgetLoop]
    by_cases hc : s.cost < budget
    case neg => rw [if_neg hc]; exact ⟨h1, h2⟩
    rw [if_pos hc]
    cases hpop : popMin s.pq with
    | none => exact ⟨h1, h2⟩
    | some pr =>
      obtain ⟨⟨negImp, dirPath⟩, rest⟩ := pr
      try dsimp only
      by_cases hexp : s.expanded.contains dirPath = true
      · rw [if_pos hexp]
        exact ih _ d h1 h2
      · rw [if_neg hexp]
        have hdne : d ≠ dirPath := by
          intro hEq
          subst hEq
          simp at hexp
          exact hexp h1
        cases hfind : findSubtree (splitSlash dirPath) tree with
        | none => exact ih _ d h1 h2
        | some st =>
          try dsimp only
          by_cases hlen : st.length = 0
          · rw [if_pos hlen]
            exact ih _ d (List.mem_cons_of_mem _ h1) h2
          · rw [if_neg hlen]
            by_cases hfit : s.cost + (st.length - 1) ≤ budget
            · rw [if_pos hfit]
              exact ih _ d (List.mem_cons_of_mem _ h1) h2
            · rw [if_neg hfit]
              try dsimp only
              by_cases hrem : budget - s.cost = 0
              · rw [if_pos hrem]
                exact ⟨h1, h2⟩
              · rw [if_neg hrem]
                by_cases hslot : budget - s.cost + 1 < 2
                · rw [if_pos hslot]
                  exact ⟨h1, h2⟩
                · rw [if_neg hslot]
                  by_cases hshow : ((st.map (fun e =>
                        (childImpVal dirPath e dirs stats lineCounts,
                          e.1))).insertionSort childOrd).length ≤
                      min (budget - s.cost + 1 - 1)
                        ((st.map (fun e =>
                          (childImpVal dirPath e dirs stats lineCounts,
                            e.1))).insertionSort childOrd).length
                  · rw [if_pos hshow]
                    exact ⟨List.mem_cons_of_mem _ h1, h2⟩
                  · rw [if_neg hshow]
                    refine ⟨List.mem_cons_of_mem _ h1, ?_⟩
                    dsimp only
                    rw [Function.update_noteq hdne]
                    exact h2

/-- C6: a directory popped with current cost plus net cost exactly
equal to the budget is fully expanded and never receives a partial
marker; a partial marker is only ever created when full expansion would
overflow the budget; and the partial branch terminates the loop at
once, adding only that one directory to the expanded set. -/
theorem budget_exact_fit_partial_behavior :
    (∀ (tree : List (String × PTree)) (dirs : List String)
        (stats : String → Option DirStats)
        (lineCounts : Option (String → Option ℕ)) (budget fuel : ℕ)
        (s : LoopState) (negImp : ℚ) (d : String)
        (rest : List (ℚ × String)) (st : List (String × PTree)),
      s.cost < budget →
      popMin s.pq = some ((negImp, d), rest) →
      s.expanded.contains d = false →
      findSubtree (splitSlash d) tree = some st →
      st.length ≠ 0 →
      s.cost + (st.length - 1) = budget →
      s.partInfo d = none →
      d ∈ (budgetLoop tree dirs stats lineCounts budget (fuel + 1) s).expanded ∧
        (budgetLoop tree dirs stats lineCounts budget
          (fuel + 1) s).partInfo d = none) ∧
      (∀ (tree : List (String × PTree)) (dirs : List String)
          (stats : String → Option DirStats)
          (lineCounts : Option (String → Option ℕ)) (budget fuel : ℕ)
          (s : LoopState) (d : String),
        s.partInfo d = none →
        (budgetLoop tree dirs stats lineCounts budget fuel s).partInfo d ≠
          none →
        ∃ (st : List (String × PTree)) (cost' : ℕ),
          findSubtree (splitSlash d) tree = some st ∧ cost' < budget ∧
            budget < cost' + (st.length - 1)) ∧
      ∀ (tree : List (String × PTree)) (dirs : List String)
          (stats : String → Option DirStats)
          (lineCounts : Option (String → Option ℕ)) (budget fuel : ℕ)
          (s : LoopState) (negImp : ℚ) (d : String)
          (rest : List (ℚ × String)) (st : List (String × PTree)),
        s.cost < budget →
        popMin s.pq = some ((negImp, d), rest) →
        s.expanded.contains d = false →
        findSubtree (splitSlash d) tree = some st →
        st.length ≠ 0 →
        budget < s.cost + (st.length - 1) →
        budgetLoop tree dirs stats lineCounts budget (fuel + 1) s =
          { pq := rest
            expanded := d :: s.expanded
            partInfo := Function.update s.partInfo d
              (some ((((st.map (fun e =>
                  (childImpVal d e dirs stats lineCounts,
                    e.1))).insertionSort childOrd).take
                (min (budget - s.cost + 1 - 1)
                  ((st.map (fun e =>
                    (childImpVal d e dirs stats lineCounts,
                      e.1))).insertionSort childOrd).length)).map
                  (fun it => it.2),
                ((st.map (fun e =>
                  (childImpVal d e dirs stats lineCounts,
                    e.1))).insertionSort childOrd).length -
                  min (budget - s.cost + 1 - 1)
                    ((st.map (fun e =>
                      (childImpVal d e dirs stats lineCounts,
                        e.1))).insertionSort childOrd).length))
            cost := s.cost +
              min (budget - s.cost + 1 - 1)
                ((st.map (fun e =>
                  (childImpVal d e dirs stats lineCounts,
                    e.1))).insertionSort childOrd).length } := by
  refine ⟨?_, ?_, ?_⟩
  · intro tree dirs stats lineCounts budget fuel s negImp d rest st hc hpop
      hexp hfind hlen hfit hpart
    rw [budgetLoop, if_pos hc, hpop]
    try dsimp only
    rw [if_neg (by simpa using hexp)]
    rw [hfind]
    try dsimp only
    rw [if_neg hlen, if_pos (le_of_eq hfit)]
    exact budgetLoop_preserves tree dirs stats lineCounts budget fuel _ d
      (List.mem_cons_self _ _) hpart
  · intro tree dirs stats lineCounts budget fuel
    induction fuel with
    | zero =>
      intro s d h1 h2
      exact absurd h1 h2
    | succ f ih =>
      intro s d h1 h2
      rw [budgetLoop] at h2
      by_cases hc : s.cost < budget
      case neg => rw [if_neg hc] at h2; exact absurd h1 h2
      rw [if_pos hc] at h2
      cases hpop : popMin s.pq with
      | none => rw [hpop] at h2; exact absurd h1 h2
      | some pr =>
        obtain ⟨⟨negImp, dirPath⟩, rest⟩ := pr
        rw [hpop] at h2
        dsimp only at h2
        by_cases hexp : s.expanded.contains dirPath = true
        · rw [if_pos hexp] at h2
          refine ih _ d ?_ h2
          exact h1
        · rw [if_neg hexp] at h2
          cases hfind : findSubtree (splitSlash dirPath) tree with
          | none =>
            rw [hfind] at h2
            try dsimp only at h2
            refine ih _ d ?_ h2
            exact h1
          | some st =>
            rw [hfind] at h2
            try dsimp only at h2
            by_cases hlen : st.length = 0
            · rw [if_pos hlen] at h2
              refine ih _ d ?_ h2
              exact h1
            · rw [if_neg hlen] at h2
              by_cases hfit : s.cost + (st.length - 1) ≤ budget
              · rw [if_pos hfit] at h2
                refine ih _ d ?_ h2
                exact h1
              · rw [if_neg hfit] at h2
                try dsimp only at h2
                by_cases hrem : budget - s.cost = 0
                · rw [if_pos hrem] at h2
                  exact absurd h1 h2
                · rw [if_neg hrem] at h2
                  by_cases hslot : budget - s.cost + 1 < 2
                  · rw [if_pos hslot] at h2
                    exact absurd h1 h2
                  · rw [if_neg hslot] at h2
                    by_cases hshow : ((st.map (fun e =>
                          (childImpVal dirPath e dirs stats lineCounts,
                            e.1))).insertionSort childOrd).length ≤
                        min (budget - s.cost + 1 - 1)
                          ((st.map (fun e =>
                            (childImpVal dirPath e dirs stats lineCounts,
                              e.1))).insertionSort childOrd).length
                    · rw [if_pos hshow] at h2
                      exact absurd h1 h2
                    · rw [if_neg hshow] at h2
                      dsimp only at h2
                      by_cases hdne : d = dirPath
                      · subst hdne
                        exact ⟨st, s.cost, hfind, hc, by omega⟩
                      · rw [Function.update_noteq hdne] at h2
                        exact absurd h1 h2
  · intro tree dirs stats lineCounts budget fuel s negImp d rest st hc hpop
      hexp hfind hlen hover
    rw [budgetLoop, if_pos hc, hpop]
    try dsimp only
    rw [if_neg (by simpa using hexp)]
    rw [hfind]
    try dsimp only
    rw [if_neg hlen, if_neg (by omega : ¬ s.cost + (st.length - 1) ≤ budget)]
    try dsimp only
    rw [if_neg (by omega : ¬ budget - s.cost = 0),
      if_neg (by omega : ¬ budget - s.cost + 1 < 2)]
    have hcl : ((st.map (fun e =>
        (childImpVal d e dirs stats lineCounts,
          e.1))).insertionSort childOrd).length = st.length := by
      rw [List.length_insertionSort, List.length_map]
    rw [if_neg (by rw [hcl]; omega)]

/-- Witness data for C6: a root directory with three files. -/
def c6Tree : List (String × PTree) :=
  [("d", PTree.node
    [("a", PTree.node []), ("b", PTree.node []), ("c", PTree.node [])])]

/-- Stats for c6Tree. -/
def c6Stats : String → Option DirStats :=
  fun p => if p = "d" then some ⟨1, 3, 0, []⟩ else none

/-- Witness for C6: the exact-fit scenario expands fully and the
overflow scenario takes the partial branch, marking d and stopping. -/
theorem budget_exact_fit_partial_behavior_witness :
    ((initLoopState c1Tree ["d"] c1Stats).cost < 2 ∧
      "d" ∈ (budgetLoop c1Tree ["d"] c1Stats none 2 5
        (initLoopState c1Tree ["d"] c1Stats)).expanded ∧
      (budgetLoop c1Tree ["d"] c1Stats none 2 5
        (initLoopState c1Tree ["d"] c1Stats)).partInfo "d" = none) ∧
      ∃ (st : List (String × PTree)) (cost' : ℕ),
        findSubtree (splitSlash "d") c6Tree = some st ∧ cost' < 2 ∧
          2 < cost' + (st.length - 1) := by
  constructor
  · refine ⟨by decide, ?_⟩
    exact budget_exact_fit_partial_behavior.1 c1Tree ["d"] c1Stats none 2 4
      (initLoopState c1Tree ["d"] c1Stats) (-(1 : ℚ)) "d" []
      [("a", PTree.node []), ("b", PTree.node [])] (by decide) rfl
      (by decide) rfl (by decide) (by decide) rfl
  · exact budget_exact_fit_partial_behavior.2.1 c6Tree ["d"] c6Stats none 2
      5 (initLoopState c6Tree ["d"] c6Stats) "d" rfl (by decide)

end RQS
